import Mathlib

/-!
Shallow embedding of the augr core merge engine
(src/core/src/repository/event.rs, src/core/src/repository/timesheet.rs,
src/core/src/store/patch.rs).

Modelling conventions:
* `PatchRef` (a 128-bit Uuid in the source) and `EventRef` / `Tag`
  (opaque strings used only as ordered keys and labels) are modelled as `Nat`;
  `DateTime<Utc>` is modelled as `Int`.  All four are used by the source only
  through equality and ordering.
* Rust `BTreeSet` fields are modelled as `Finset` (a `BTreeSet` is exactly a
  canonical finite set; iterating it and erasing each element of another set
  is set difference).  The `HashSet` instruction collections of a `Patch` are
  modelled as `List` because the source only iterates them.
* `BTreeMap<EventRef, PatchedEvent>` is modelled as an association list kept
  sorted by key (`ainsert` is `BTreeMap::insert`, overwriting and returning
  the canonical sorted list; iteration order of the list is the iteration
  order of the map).
* A Rust panic (`expect` / `assert!`) is modelled as `none`; fallible
  functions that return `Result` are modelled with `Except` inside `Option`,
  `none` meaning the call does not return at all.
-/

instance {ε α : Type} [DecidableEq ε] [DecidableEq α] : DecidableEq (Except ε α) := fun x y =>
  match x, y with
  | Except.ok a, Except.ok b => decidable_of_iff (a = b) (by simp)
  | Except.error a, Except.error b => decidable_of_iff (a = b) (by simp)
  | Except.ok _, Except.error _ => isFalse fun h => Except.noConfusion h
  | Except.error _, Except.ok _ => isFalse fun h => Except.noConfusion h

abbrev PatchRef := Nat
abbrev EventRef := Nat
abbrev Tag := Nat
abbrev Timestamp := Int

/-! ### Association lists used as `BTreeMap` (generic over the key order) -/

/-- First-match lookup in an association list (`BTreeMap::get`). -/
def alookup {κ ω : Type} [DecidableEq κ] (k : κ) : List (κ × ω) → Option ω
  | [] => none
  | (k2, v) :: rest => if k2 = k then some v else alookup k rest

/-- Apply `f` to the value stored at `k` (models mutating through
`BTreeMap::get_mut`); the list of keys is unchanged. -/
def aupdate {κ ω : Type} [DecidableEq κ] (k : κ) (f : ω → ω) : List (κ × ω) → List (κ × ω)
  | [] => []
  | (k2, v) :: rest => if k2 = k then (k2, f v) :: rest else (k2, v) :: aupdate k f rest

/-- Sorted insert with overwrite (`BTreeMap::insert`): keeps a list sorted by
key and replaces the value when the key is already present. -/
def ainsert {κ ω : Type} [LinearOrder κ] (k : κ) (v : ω) : List (κ × ω) → List (κ × ω)
  | [] => [(k, v)]
  | (k2, v2) :: rest =>
    if k < k2 then (k, v) :: (k2, v2) :: rest
    else if k2 = k then (k, v) :: rest
    else (k2, v2) :: ainsert k v rest

/-- Keys of an association list, in order. -/
def akeys {κ ω : Type} : List (κ × ω) → List κ := List.map Prod.fst

/-! ### PatchedEvent (src/core/src/repository/event.rs) -/

/-- Per-event CRDT state: two two-phase sets over `(PatchRef, value)` pairs
plus the causal frontier `latest_patches`. -/
structure PatchedEvent where
  starts_added : Finset (PatchRef × Timestamp)
  starts_removed : Finset (PatchRef × Timestamp)
  tags_added : Finset (PatchRef × Tag)
  tags_removed : Finset (PatchRef × Tag)
  latest_patches : Finset PatchRef
deriving DecidableEq

/-- Errors of `PatchedEvent::flatten`. -/
inductive EventError where
  | MultipleStartTimes
  | NoStartTimes
deriving DecidableEq

/-- Flattened event: one start time and the visible tag values. -/
structure Event where
  start : Timestamp
  tags : Finset Tag
deriving DecidableEq

def PatchedEvent.new : PatchedEvent :=
  ⟨∅, ∅, ∅, ∅, ∅⟩

def PatchedEvent.remove_patch_from_latest (e : PatchedEvent) (patch : PatchRef) : PatchedEvent :=
  { e with latest_patches := e.latest_patches.erase patch }

def PatchedEvent.add_patch_to_latest (e : PatchedEvent) (patch : PatchRef) : PatchedEvent :=
  { e with latest_patches := insert patch e.latest_patches }

def PatchedEvent.add_start (e : PatchedEvent) (patch : PatchRef) (datetime : Timestamp) :
    PatchedEvent :=
  { e with starts_added := insert (patch, datetime) e.starts_added }

def PatchedEvent.remove_start (e : PatchedEvent) (patch : PatchRef) (datetime : Timestamp) :
    PatchedEvent :=
  { e with starts_removed := insert (patch, datetime) e.starts_removed }

/-- Visible starts: `starts_added.difference(starts_removed)`. -/
def PatchedEvent.starts (e : PatchedEvent) : Finset (PatchRef × Timestamp) :=
  e.starts_added \ e.starts_removed

def PatchedEvent.add_tag (e : PatchedEvent) (patch : PatchRef) (tag : Tag) : PatchedEvent :=
  { e with tags_added := insert (patch, tag) e.tags_added }

def PatchedEvent.remove_tag (e : PatchedEvent) (patch : PatchRef) (tag : Tag) : PatchedEvent :=
  { e with tags_removed := insert (patch, tag) e.tags_removed }

/-- Visible tags: `tags_added.difference(tags_removed)`. -/
def PatchedEvent.tags (e : PatchedEvent) : Finset (PatchRef × Tag) :=
  e.tags_added \ e.tags_removed

/-- `PatchedEvent::flatten`: `MultipleStartTimes` when the visible start set
has two or more elements, `NoStartTimes` when it is empty, otherwise the
unique visible start time together with the visible tag values.  (With
exactly one visible start, the minimum of the projected time set is that
start's time, matching the source's `starts.iter().next()` projection.) -/
def PatchedEvent.flatten (e : PatchedEvent) : Except EventError Event :=
  let starts := e.starts
  if 2 ≤ starts.card then Except.error EventError.MultipleStartTimes
  else
    match (starts.image Prod.snd).min with
    | none => Except.error EventError.NoStartTimes
    | some t => Except.ok ⟨t, e.tags.image Prod.snd⟩

/-! ### Patch and its instructions (src/core/src/store/patch.rs) -/

structure AddStart where
  parents : Finset PatchRef
  event : EventRef
  time : Timestamp
deriving DecidableEq

structure RemoveStart where
  parents : Option (Finset PatchRef)
  patch : PatchRef
  event : EventRef
  time : Timestamp
deriving DecidableEq

structure AddTag where
  parents : Finset PatchRef
  event : EventRef
  tag : Tag
deriving DecidableEq

structure RemoveTag where
  parents : Option (Finset PatchRef)
  patch : PatchRef
  event : EventRef
  tag : Tag
deriving DecidableEq

structure CreateEvent where
  event : EventRef
  start : Timestamp
  tags : List Tag
deriving DecidableEq

structure Patch where
  id : PatchRef
  add_start : List AddStart
  remove_start : List RemoveStart
  add_tag : List AddTag
  remove_tag : List RemoveTag
  create_event : List CreateEvent
deriving DecidableEq

/-- `RemoveStart::parents()`: iterating an `Option<BTreeSet>` yields the set
when present and nothing otherwise. -/
def RemoveStart.parentsSet (r : RemoveStart) : Finset PatchRef := r.parents.getD ∅

def RemoveTag.parentsSet (r : RemoveTag) : Finset PatchRef := r.parents.getD ∅

/-- `Patch::parents()`: the union of every causal-predecessor reference in
the patch (the `parents` fields of all four edit instruction kinds plus the
`patch` field of both removal kinds). -/
def Patch.parents (p : Patch) : Finset PatchRef :=
  (p.add_start.foldr (fun a s => a.parents ∪ s) ∅)
    ∪ (p.remove_start.foldr (fun r s => insert r.patch (r.parentsSet ∪ s)) ∅)
    ∪ (p.remove_tag.foldr (fun r s => insert r.patch (r.parentsSet ∪ s)) ∅)
    ∪ (p.add_tag.foldr (fun a s => a.parents ∪ s) ∅)

/-! ### PatchedTimesheet (src/core/src/repository/timesheet.rs) -/

/-- Intermediate timesheet form: `BTreeMap<EventRef, PatchedEvent>` as a
sorted association list. -/
structure PatchedTimesheet where
  events : List (EventRef × PatchedEvent)
deriving DecidableEq

/-- Errors of the timesheet layer (`repository::timesheet::Error`). -/
inductive TsError where
  | FlattenEventError (source : EventError) (event : EventRef)
  | DuplicateEventTime (event_a : EventRef) (event_b : EventRef)
  | UnknownEvent (patch : PatchRef) (event : EventRef)
  | DuplicateEventId (id : EventRef)
deriving DecidableEq

def PatchedTimesheet.new : PatchedTimesheet := ⟨[]⟩

/-- Error list accumulated by `verify_patch`, in the source's push order:
one `UnknownEvent` per `add_start` naming a missing event, then one per such
`remove_start`, then one `DuplicateEventId` per `create_event` naming an
existing event. -/
def verifyErrors (ts : PatchedTimesheet) (p : Patch) : List TsError :=
  (p.add_start.filterMap fun a =>
    match alookup a.event ts.events with
    | some _ => none
    | none => some (TsError.UnknownEvent p.id a.event))
  ++ (p.remove_start.filterMap fun r =>
    match alookup r.event ts.events with
    | some _ => none
    | none => some (TsError.UnknownEvent p.id r.event))
  ++ (p.create_event.filterMap fun c =>
    match alookup c.event ts.events with
    | some _ => some (TsError.DuplicateEventId c.event)
    | none => none)

/-- `add_tag`/`remove_tag` instructions must name existing events; in the
source a violation is a panic (`expect`), not a collected error. -/
def tagEventsPresent (ts : PatchedTimesheet) (p : Patch) : Bool :=
  (p.add_tag.all fun a => (alookup a.event ts.events).isSome)
    && (p.remove_tag.all fun r => (alookup r.event ts.events).isSome)

/-- `PatchedTimesheet::verify_patch`; `none` is the tag-instruction panic. -/
def PatchedTimesheet.verify_patch (ts : PatchedTimesheet) (p : Patch) :
    Option (Except (List TsError) Unit) :=
  if tagEventsPresent ts p then
    some (if verifyErrors ts p = [] then Except.ok () else Except.error (verifyErrors ts p))
  else none

/-- One `add_start` instruction's mutation of its event: insert the
`(patch, time)` pair, erase each cited parent from the frontier, then add the
applying patch's id to the frontier.  (Erasing every element of the parent
set is set difference.) -/
def stepAddStart (pid : PatchRef) (a : AddStart) (ev : PatchedEvent) : PatchedEvent :=
  (({ ev.add_start pid a.time with
      latest_patches := (ev.add_start pid a.time).latest_patches \ a.parents })).add_patch_to_latest pid

/-- One `remove_start` instruction's mutation: insert the tombstone pair,
erase the named adding patch and each parent from the frontier, then add the
applying patch's id. -/
def stepRemoveStart (pid : PatchRef) (r : RemoveStart) (ev : PatchedEvent) : PatchedEvent :=
  let e1 := (ev.remove_start r.patch r.time).remove_patch_from_latest r.patch
  ({ e1 with latest_patches := e1.latest_patches \ r.parentsSet }).add_patch_to_latest pid

def stepAddTag (pid : PatchRef) (a : AddTag) (ev : PatchedEvent) : PatchedEvent :=
  (({ ev.add_tag pid a.tag with
      latest_patches := (ev.add_tag pid a.tag).latest_patches \ a.parents })).add_patch_to_latest pid

def stepRemoveTag (pid : PatchRef) (r : RemoveTag) (ev : PatchedEvent) : PatchedEvent :=
  let e1 := (ev.remove_tag r.patch r.tag).remove_patch_from_latest r.patch
  ({ e1 with latest_patches := e1.latest_patches \ r.parentsSet }).add_patch_to_latest pid

/-- Apply one edit instruction: `get_mut(..).expect("valid patch")` panics
(`none`) when the event is missing, otherwise mutates it in place. -/
def applyInstr {α : Type} (eventOf : α → EventRef) (step : α → PatchedEvent → PatchedEvent)
    (x : α) (ts : PatchedTimesheet) : Option PatchedTimesheet :=
  match alookup (eventOf x) ts.events with
  | none => none
  | some _ => some ⟨aupdate (eventOf x) (step x) ts.events⟩

/-- Run a loop body over a list of instructions, threading the timesheet and
propagating a panic. -/
def applySeq {α : Type} (f : α → PatchedTimesheet → Option PatchedTimesheet) :
    List α → PatchedTimesheet → Option PatchedTimesheet
  | [], ts => some ts
  | x :: xs, ts =>
    match f x ts with
    | none => none
    | some t => applySeq f xs t

/-- The fresh `PatchedEvent` built by a `create_event` instruction: seeded
with the creating patch's start and tags, frontier `{patch.id}`. -/
def seedEvent (pid : PatchRef) (c : CreateEvent) : PatchedEvent :=
  (c.tags.foldl (fun ev t => ev.add_tag pid t)
    (PatchedEvent.new.add_start pid c.start)).add_patch_to_latest pid

/-- One `create_event` instruction: insert the seeded event;
`assert!(prev_entry.is_none())` panics (`none`) when the id is taken. -/
def applyCreate (pid : PatchRef) (c : CreateEvent) (ts : PatchedTimesheet) :
    Option PatchedTimesheet :=
  match alookup c.event ts.events with
  | some _ => none
  | none => some ⟨ainsert c.event (seedEvent pid c) ts.events⟩

/-- `PatchedTimesheet::apply_patch`: verify, then run the five instruction
loops in source order.  `none` is a panic, `Except.error` the verification
failure (the state is untouched in that case: verification only reads). -/
def PatchedTimesheet.apply_patch (ts : PatchedTimesheet) (p : Patch) :
    Option (Except (List TsError) PatchedTimesheet) :=
  match ts.verify_patch p with
  | none => none
  | some (Except.error es) => some (Except.error es)
  | some (Except.ok _) =>
    (((((applySeq (applyInstr AddStart.event (stepAddStart p.id)) p.add_start ts).bind
      (applySeq (applyInstr RemoveStart.event (stepRemoveStart p.id)) p.remove_start)).bind
      (applySeq (applyInstr AddTag.event (stepAddTag p.id)) p.add_tag)).bind
      (applySeq (applyInstr RemoveTag.event (stepRemoveTag p.id)) p.remove_tag)).bind
      (applySeq (applyCreate p.id) p.create_event)).map Except.ok

/-- A caller that keeps the previous state when `apply_patch` reports a
verification error (the `&mut self` is untouched then); a panic aborts. -/
def applyKeep (ts : PatchedTimesheet) (p : Patch) : Option PatchedTimesheet :=
  match ts.apply_patch p with
  | none => none
  | some (Except.error _) => some ts
  | some (Except.ok t) => some t

/-! ### Flattened timesheet

Modelled from the spec: the core `Timesheet` type and its `event_at_time`
method live in `src/core/src/timesheet.rs`, which is not among the provided
sources.  Per the spec it is the canonical map from resolved start timestamp
to event, answering "is there already an event with exactly this start";
`event_at_time` records an event's resolved start and reports the event
previously holding that exact timestamp, if any. -/
structure Timesheet where
  events : List (Timestamp × EventRef)
deriving DecidableEq

/-- Modelled from the spec: record `r` at time `t`, returning the previous
occupant of `t` (if any) alongside the updated map. -/
def Timesheet.event_at_time (ts : Timesheet) (t : Timestamp) (r : EventRef) :
    Option EventRef × Timesheet :=
  (alookup t ts.events, ⟨ainsert t r ts.events⟩)

/-- Loop body of `PatchedTimesheet::flatten`: walk the events in map order,
building the flattened timesheet, the `event_datetimes_to_refs` map and the
error list.  The `none` branch is the `event_datetimes_to_refs[..]` indexing
panic (unreachable: the two maps always hold the same entries). -/
def flattenGo : List (EventRef × PatchedEvent) → Timesheet → List (Timestamp × EventRef) →
    List TsError → Option (Timesheet × List TsError)
  | [], acc, _, errs => some (acc, errs)
  | (r, pe) :: rest, acc, dtmap, errs =>
    match pe.flatten with
    | Except.ok ev =>
      match acc.event_at_time ev.start r with
      | (some _, acc2) =>
        match alookup ev.start dtmap with
        | none => none
        | some ea =>
          flattenGo rest acc2 (ainsert ev.start r dtmap)
            (errs ++ [TsError.DuplicateEventTime ea r])
      | (none, acc2) => flattenGo rest acc2 (ainsert ev.start r dtmap) errs
    | Except.error src => flattenGo rest acc dtmap (errs ++ [TsError.FlattenEventError src r])

/-- `PatchedTimesheet::flatten`: the complete `Timesheet` when no error
accumulated, otherwise the whole error list. -/
def PatchedTimesheet.flatten (ts : PatchedTimesheet) :
    Option (Except (List TsError) Timesheet) :=
  match flattenGo ts.events ⟨[]⟩ [] [] with
  | none => none
  | some (t, []) => some (Except.ok t)
  | some (_, e :: es) => some (Except.error (e :: es))

/-! ### Derived notions used to state the claims -/

/-- Insert a key into a sorted key list the way `ainsert` does. -/
def kinsert {κ : Type} [LinearOrder κ] (k : κ) : List κ → List κ
  | [] => [k]
  | k2 :: rest =>
    if k < k2 then k :: k2 :: rest
    else if k2 = k then k :: rest
    else k2 :: kinsert k rest

/-- The event map of a `PatchedTimesheet` is strictly sorted by key, as a
`BTreeMap` always is. -/
def SortedKeys (ts : PatchedTimesheet) : Prop :=
  List.Chain' (fun a b => a < b) (akeys ts.events)

/-- Executable strict-ascending check on a key list. -/
def chainLtB : List EventRef → Bool
  | [] => true
  | [_] => true
  | a :: b :: r => decide (a < b) && chainLtB (b :: r)

instance (ts : PatchedTimesheet) : Decidable (SortedKeys ts) :=
  decidable_of_iff (chainLtB (akeys ts.events) = true) (by
    have haux : ∀ l : List EventRef, chainLtB l = true
        ↔ List.Chain' (fun a b => a < b) l := by
      intro l
      induction l with
      | nil => simp [chainLtB]
      | cons a r ih =>
        cases r with
        | nil => simp [chainLtB]
        | cons b r2 =>
          rw [List.chain'_cons, ← ih]
          simp [chainLtB, Bool.and_eq_true, decide_eq_true_eq]
    exact haux (akeys ts.events))

/-- Names of the events a patch creates. -/
def createdNames (p : Patch) : List EventRef := p.create_event.map CreateEvent.event

/-- Every event named by any instruction of the patch. -/
def referencedEvents (p : Patch) : Finset EventRef :=
  (p.add_start.map AddStart.event).toFinset
    ∪ (p.remove_start.map RemoveStart.event).toFinset
    ∪ (p.add_tag.map AddTag.event).toFinset
    ∪ (p.remove_tag.map RemoveTag.event).toFinset
    ∪ (p.create_event.map CreateEvent.event).toFinset

/-- Union of `f` over a list of instructions. -/
def unionOver {α : Type} (f : α → Finset PatchRef) (L : List α) : Finset PatchRef :=
  L.foldr (fun a s => f a ∪ s) ∅

/-- Does some edit instruction of `p` target event `e`? -/
def touchesEdit (p : Patch) (e : EventRef) : Bool :=
  (p.add_start.any fun a => a.event == e) || (p.remove_start.any fun r => r.event == e)
    || (p.add_tag.any fun a => a.event == e) || (p.remove_tag.any fun r => r.event == e)

/-- The direct-predecessor patch ids that `p`'s instructions on event `e`
cite: the `parents` sets of additions, plus the `patch` field and `parents`
set of removals. -/
def parentsFor (p : Patch) (e : EventRef) : Finset PatchRef :=
  unionOver (fun a => a.parents) (p.add_start.filter fun a => a.event == e)
    ∪ unionOver (fun r => insert r.patch r.parentsSet) (p.remove_start.filter fun r => r.event == e)
    ∪ unionOver (fun a => a.parents) (p.add_tag.filter fun a => a.event == e)
    ∪ unionOver (fun r => insert r.patch r.parentsSet) (p.remove_tag.filter fun r => r.event == e)

/-- Net effect of all of `p`'s edit instructions on event `e`'s state: each
two-phase set is extended by the instruction pairs for `e`, and when any
instruction targets `e` the frontier loses every cited predecessor and gains
`p.id`. -/
def patchEffect (p : Patch) (e : EventRef) (ev : PatchedEvent) : PatchedEvent :=
  { starts_added := ev.starts_added
      ∪ ((p.add_start.filter fun a => a.event == e).map fun a => (p.id, a.time)).toFinset,
    starts_removed := ev.starts_removed
      ∪ ((p.remove_start.filter fun r => r.event == e).map fun r => (r.patch, r.time)).toFinset,
    tags_added := ev.tags_added
      ∪ ((p.add_tag.filter fun a => a.event == e).map fun a => (p.id, a.tag)).toFinset,
    tags_removed := ev.tags_removed
      ∪ ((p.remove_tag.filter fun r => r.event == e).map fun r => (r.patch, r.tag)).toFinset,
    latest_patches :=
      if touchesEdit p e then insert p.id (ev.latest_patches \ parentsFor p e)
      else ev.latest_patches }

/-- Fold a per-instruction event mutation over a list of instructions. -/
def effList {α : Type} (step : α → PatchedEvent → PatchedEvent) (xs : List α)
    (ev : PatchedEvent) : PatchedEvent :=
  xs.foldl (fun v x => step x v) ev

/-- Causal independence of two patches over a base state, as the
commutativity claim demands it: distinct ids, neither id cited among the
other's predecessor references, and neither patch referencing an event that
only exists once the other patch has been applied. -/
def IndependentOn (ts : PatchedTimesheet) (a b : Patch) : Prop :=
  a.id ≠ b.id ∧ a.id ∉ b.parents ∧ b.id ∉ a.parents
    ∧ (∀ e ∈ referencedEvents a, alookup e ts.events = none → e ∉ createdNames b)
    ∧ (∀ e ∈ referencedEvents b, alookup e ts.events = none → e ∉ createdNames a)

instance (ts : PatchedTimesheet) (a b : Patch) : Decidable (IndependentOn ts a b) :=
  inferInstanceAs (Decidable (a.id ≠ b.id ∧ a.id ∉ b.parents ∧ b.id ∉ a.parents
    ∧ (∀ e ∈ referencedEvents a, alookup e ts.events = none → e ∉ createdNames b)
    ∧ (∀ e ∈ referencedEvents b, alookup e ts.events = none → e ∉ createdNames a)))

/-! ### Spec-side description of flatten (for the refinement theorem)

Written from the spec's words for `PatchedTimesheet::flatten`: visit every
tracked event in map order; an event whose own flatten fails contributes one
`FlattenEventError` wrapping its error and id; an event resolving to a start
timestamp already held by a previously seen event contributes one
`DuplicateEventTime` naming the earlier event first; the complete timesheet
is returned exactly when no error accumulated, otherwise the whole list. -/
def flattenSpecGo : List (EventRef × PatchedEvent) → List (Timestamp × EventRef) →
    List TsError → List (Timestamp × EventRef) × List TsError
  | [], seen, errs => (seen, errs)
  | (r, pe) :: rest, seen, errs =>
    match pe.flatten with
    | Except.ok ev =>
      match alookup ev.start seen with
      | some ea =>
        flattenSpecGo rest (ainsert ev.start r seen) (errs ++ [TsError.DuplicateEventTime ea r])
      | none => flattenSpecGo rest (ainsert ev.start r seen) errs
    | Except.error src => flattenSpecGo rest seen (errs ++ [TsError.FlattenEventError src r])

def flattenSpec (ts : PatchedTimesheet) : Except (List TsError) Timesheet :=
  match flattenSpecGo ts.events [] [] with
  | (seen, []) => Except.ok ⟨seen⟩
  | (_, e :: es) => Except.error (e :: es)

/-! ### Concrete inputs used by counterexamples and witnesses -/

/-- Patch creating event `7` at time `100` with tags `3, 4` under id `5`. -/
def wPatchCreate : Patch := ⟨5, [], [], [], [], [⟨7, 100, [3, 4]⟩]⟩

/-- State holding just event `7` as created by `wPatchCreate`. -/
def wState1 : PatchedTimesheet := ⟨[(7, seedEvent 5 ⟨7, 100, [3, 4]⟩)]⟩

/-- Patch `6` adding a second start to event `7`, citing patch `5`. -/
def wPatchAdd : Patch := ⟨6, [⟨{5}, 7, 200⟩], [], [], [], []⟩

/-- Patch `9` tagging event `7` (parent `5`) and creating event `8`. -/
def wPatchTag : Patch := ⟨9, [], [], [⟨{5}, 7, 4⟩], [], [⟨8, 300, []⟩]⟩

/-- Offending `add_start` on missing event `7` together with an `add_tag` on
missing event `8` (C3 counterexample: the tag reference panics, so no error
list is ever returned). -/
def cexPatchStartTag : Patch := ⟨5, [⟨∅, 7, 100⟩], [], [⟨∅, 8, 3⟩], [], []⟩

/-- A patch that creates event `7` and also adds a start and a tag to it
(C10 counterexample: the tag reference hits the verification panic). -/
def cexPatchCreateTouch : Patch := ⟨5, [⟨∅, 7, 100⟩], [], [⟨∅, 7, 3⟩], [], [⟨7, 100, []⟩]⟩

/-- Like `cexPatchCreateTouch` but without the tag instruction (C10 witness
input: rejected with `UnknownEvent`). -/
def wPatchCreateTouch : Patch := ⟨5, [⟨∅, 7, 100⟩], [], [], [], [⟨7, 100, []⟩]⟩

/-- Two `create_event` instructions for the same event id `7` with different
start times (C8 failing input: passes verification, apply asserts). -/
def cexPatchDupCreate : Patch := ⟨5, [], [], [], [], [⟨7, 100, []⟩, ⟨7, 200, []⟩]⟩

/-- Three events that all resolve to start time `10` (C5 counterexample). -/
def cexThreeSameStart : PatchedTimesheet :=
  ⟨[(1, PatchedEvent.new.add_start 11 10), (2, PatchedEvent.new.add_start 12 10),
    (3, PatchedEvent.new.add_start 13 10)]⟩

/-- Two patches added the start `10`; the tombstone names patch `1`'s pair
(C7 counterexample input). -/
def cexTwoAdders : PatchedEvent :=
  ((PatchedEvent.new.add_start 1 10).add_start 2 10).remove_start 1 10


/-! ## Lemmas: association lists -/

theorem akeys_nil {κ ω : Type} : akeys ([] : List (κ × ω)) = [] := rfl

theorem akeys_cons {κ ω : Type} (k : κ) (v : ω) (l : List (κ × ω)) :
    akeys ((k, v) :: l) = k :: akeys l := rfl

theorem alookup_aupdate {κ ω : Type} [DecidableEq κ] (k e : κ) (f : ω → ω)
    (l : List (κ × ω)) :
    alookup e (aupdate k f l) = if e = k then (alookup k l).map f else alookup e l := by
  induction l with
  | nil => by_cases he : e = k <;> simp [aupdate, alookup, he]
  | cons hd tl ih =>
    obtain ⟨k2, v⟩ := hd
    by_cases h2 : k2 = k
    · subst h2
      by_cases he : e = k2
      · subst he
        simp [aupdate, alookup]
      · simp [aupdate, alookup, he, Ne.symm he]
    · by_cases he : k2 = e
      · subst he
        simp [aupdate, alookup, h2]
      · simp [aupdate, alookup, h2, he, ih]

theorem alookup_ainsert {κ ω : Type} [LinearOrder κ] (k e : κ) (v : ω) (l : List (κ × ω)) :
    alookup e (ainsert k v l) = if e = k then some v else alookup e l := by
  induction l with
  | nil =>
    by_cases he : e = k
    · subst he; simp [ainsert, alookup]
    · simp [ainsert, alookup, he, show ¬(k = e) from fun h => he h.symm]
  | cons hd tl ih =>
    obtain ⟨k2, v2⟩ := hd
    by_cases hlt : k < k2
    · by_cases he : e = k
      · subst he
        simp [ainsert, alookup, hlt]
      · have hke : ¬(k = e) := fun h => he h.symm
        simp [ainsert, alookup, hlt, hke, he]
    · by_cases h2 : k2 = k
      · subst h2
        by_cases he : e = k2
        · subst he
          simp [ainsert, alookup, hlt]
        · simp [ainsert, alookup, hlt, he, Ne.symm he]
      · by_cases he : e = k2
        · subst he
          have hek : ¬(e = k) := fun h => h2 h
          simp [ainsert, alookup, hlt, h2, hek]
        · simp [ainsert, alookup, hlt, h2, Ne.symm he, he, ih]

theorem akeys_aupdate {κ ω : Type} [DecidableEq κ] (k : κ) (f : ω → ω) (l : List (κ × ω)) :
    akeys (aupdate k f l) = akeys l := by
  induction l with
  | nil => rfl
  | cons hd tl ih =>
    obtain ⟨k2, v⟩ := hd
    by_cases h2 : k2 = k
    · simp [aupdate, h2, akeys_cons]
    · simp [aupdate, h2, akeys_cons, ih]

theorem akeys_ainsert {κ ω : Type} [LinearOrder κ] (k : κ) (v : ω) (l : List (κ × ω)) :
    akeys (ainsert k v l) = kinsert k (akeys l) := by
  induction l with
  | nil => rfl
  | cons hd tl ih =>
    obtain ⟨k2, v2⟩ := hd
    by_cases hlt : k < k2
    · simp [ainsert, akeys, kinsert, hlt]
    · by_cases h2 : k2 = k
      · simp [ainsert, akeys, kinsert, hlt, h2]
      · simp only [ainsert, hlt, if_false, h2, akeys, List.map_cons, kinsert]
        simpa [akeys] using ih

theorem alookup_eq_none_iff {κ ω : Type} [DecidableEq κ] (k : κ) (l : List (κ × ω)) :
    alookup k l = none ↔ k ∉ akeys l := by
  induction l with
  | nil => simp [alookup, akeys_nil]
  | cons hd tl ih =>
    obtain ⟨k2, v⟩ := hd
    by_cases h2 : k2 = k
    · subst h2
      simp [alookup, akeys_cons]
    · simp [alookup, akeys_cons, h2, Ne.symm h2, ih]

theorem alist_ext {κ ω : Type} [DecidableEq κ] :
    ∀ (l1 l2 : List (κ × ω)), akeys l1 = akeys l2 → (akeys l1).Nodup →
      (∀ k, alookup k l1 = alookup k l2) → l1 = l2 := by
  intro l1
  induction l1 with
  | nil =>
    intro l2 hk _ _
    cases l2 with
    | nil => rfl
    | cons hd tl =>
      obtain ⟨k2, v2⟩ := hd
      rw [akeys_nil, akeys_cons] at hk
      exact absurd hk (by simp)
  | cons hd tl ih =>
    intro l2 hk hnd hl
    obtain ⟨k, v⟩ := hd
    cases l2 with
    | nil =>
      rw [akeys_cons, akeys_nil] at hk
      exact absurd hk (by simp)
    | cons hd2 tl2 =>
      obtain ⟨k2, v2⟩ := hd2
      rw [akeys_cons, akeys_cons] at hk
      obtain ⟨hkk, hkt⟩ : k = k2 ∧ akeys tl = akeys tl2 := by
        exact ⟨List.head_eq_of_cons_eq hk, List.tail_eq_of_cons_eq hk⟩
      subst hkk
      have hv : v = v2 := by
        have := hl k
        simpa [alookup] using this
      subst hv
      rw [akeys_cons, List.nodup_cons] at hnd
      have htl : tl = tl2 := by
        refine ih tl2 hkt hnd.2 ?_
        intro k3
        by_cases h3 : k3 = k
        · subst h3
          rw [(alookup_eq_none_iff k3 tl).2 hnd.1,
            (alookup_eq_none_iff k3 tl2).2 (by rw [← hkt]; exact hnd.1)]
        · have := hl k3
          simpa [alookup, show ¬(k = k3) from fun h => h3 h.symm] using this
      rw [htl]

/-! ## Lemmas: sorted keys -/

theorem mem_kinsert {κ : Type} [LinearOrder κ] (y k : κ) :
    ∀ l : List κ, y ∈ kinsert k l ↔ y = k ∨ y ∈ l := by
  intro l
  induction l with
  | nil => simp [kinsert]
  | cons k2 tl ih =>
    by_cases hlt : k < k2
    · simp [kinsert, hlt]
    · by_cases h2 : k2 = k
      · subst h2
        rw [kinsert, if_neg hlt, if_pos rfl]
        simp only [List.mem_cons]
        tauto
      · simp only [kinsert, if_neg hlt, if_neg h2, List.mem_cons, ih]
        tauto

theorem pairwise_kinsert {κ : Type} [LinearOrder κ] (k : κ) :
    ∀ l : List κ, List.Pairwise (fun a b => a < b) l →
      List.Pairwise (fun a b => a < b) (kinsert k l) := by
  intro l
  induction l with
  | nil => intro _; simp [kinsert]
  | cons k2 tl ih =>
    intro h
    rw [List.pairwise_cons] at h
    by_cases hlt : k < k2
    · rw [kinsert, if_pos hlt]
      refine List.Pairwise.cons ?_ (List.Pairwise.cons h.1 h.2)
      intro y hy
      rcases List.mem_cons.1 hy with h1 | h1
      · exact h1 ▸ hlt
      · exact lt_trans hlt (h.1 y h1)
    · by_cases h2 : k2 = k
      · subst h2
        rw [kinsert, if_neg hlt, if_pos rfl]
        exact List.Pairwise.cons h.1 h.2
      · rw [kinsert, if_neg hlt, if_neg h2]
        have hk2k : k2 < k := lt_of_le_of_ne (le_of_not_lt hlt) h2
        refine List.Pairwise.cons ?_ (ih h.2)
        intro y hy
        rcases (mem_kinsert y k tl).1 hy with h1 | h1
        · exact h1 ▸ hk2k
        · exact h.1 y h1

theorem pairwise_lt_nodup {κ : Type} [LinearOrder κ] (l : List κ)
    (h : List.Pairwise (fun a b => a < b) l) : l.Nodup :=
  h.imp ne_of_lt

/-- Two association lists with strictly sorted keys and identical lookups
are identical. -/
theorem alist_ext_sorted {κ ω : Type} [LinearOrder κ] (l1 l2 : List (κ × ω))
    (h1 : List.Chain' (fun a b => a < b) (akeys l1))
    (h2 : List.Chain' (fun a b => a < b) (akeys l2))
    (hl : ∀ k, alookup k l1 = alookup k l2) : l1 = l2 := by
  have hp1 : List.Pairwise (fun a b => a < b) (akeys l1) := List.chain'_iff_pairwise.1 h1
  have hp2 : List.Pairwise (fun a b => a < b) (akeys l2) := List.chain'_iff_pairwise.1 h2
  have hmem : ∀ k, k ∈ akeys l1 ↔ k ∈ akeys l2 := by
    intro k
    rw [← not_iff_not, ← alookup_eq_none_iff (ω := ω), ← alookup_eq_none_iff (ω := ω), hl k]
  have hperm : (akeys l1).Perm (akeys l2) :=
    (List.perm_ext_iff_of_nodup (pairwise_lt_nodup _ hp1) (pairwise_lt_nodup _ hp2)).2 hmem
  haveI : IsAntisymm κ (fun a b => a < b) := ⟨fun a b hab hba => absurd hba (asymm hab)⟩
  have hkeys : akeys l1 = akeys l2 := List.eq_of_perm_of_sorted hperm hp1 hp2
  exact alist_ext l1 l2 hkeys (pairwise_lt_nodup _ hp1) hl

/-! ## Lemmas: per-event flatten -/

theorem flatten_of_two_le (e : PatchedEvent) (h : 2 ≤ e.starts.card) :
    e.flatten = Except.error EventError.MultipleStartTimes := by
  simp [PatchedEvent.flatten, h]

theorem flatten_of_card_zero (e : PatchedEvent) (h : e.starts.card = 0) :
    e.flatten = Except.error EventError.NoStartTimes := by
  have hs : e.starts = ∅ := Finset.card_eq_zero.1 h
  simp [PatchedEvent.flatten, hs, Finset.min_empty]

theorem flatten_of_singleton (e : PatchedEvent) (x : PatchRef × Timestamp)
    (h : e.starts = {x}) :
    e.flatten = Except.ok ⟨x.2, e.tags.image Prod.snd⟩ := by
  simp [PatchedEvent.flatten, h, Finset.min_singleton]

/-- C4: `PatchedEvent.flatten` returns `MultipleStartTimes` exactly when the
visible start set has more than one element, `NoStartTimes` exactly when it
is empty, and otherwise succeeds with the unique visible start time and the
visible tag values (possibly empty); it succeeds iff the visible start set
has size exactly one. -/
theorem claimC4_event_flatten_cases (e : PatchedEvent) :
    (e.flatten = Except.error EventError.MultipleStartTimes ↔ 2 ≤ e.starts.card)
    ∧ (e.flatten = Except.error EventError.NoStartTimes ↔ e.starts.card = 0)
    ∧ (∀ ev : Event, e.flatten = Except.ok ev ↔
        e.starts.card = 1 ∧ (∀ pr ∈ e.starts, pr.2 = ev.start)
          ∧ ev.tags = e.tags.image Prod.snd)
    ∧ ((∃ ev, e.flatten = Except.ok ev) ↔ e.starts.card = 1) := by
  by_cases h2 : 2 ≤ e.starts.card
  · rw [flatten_of_two_le e h2]
    refine ⟨iff_of_true rfl h2, iff_of_false (by simp) (by omega),
      fun ev => iff_of_false (by simp) ?_, iff_of_false (by simp) (by omega)⟩
    rintro ⟨h1, -, -⟩
    omega
  · have hcase : e.starts.card = 0 ∨ e.starts.card = 1 := by omega
    rcases hcase with h0 | h1
    · rw [flatten_of_card_zero e h0]
      refine ⟨iff_of_false (by simp) (by omega), iff_of_true rfl h0,
        fun ev => iff_of_false (by simp) ?_, iff_of_false (by simp) (by omega)⟩
      rintro ⟨h1, -, -⟩
      omega
    · obtain ⟨x, hx⟩ := Finset.card_eq_one.1 h1
      rw [flatten_of_singleton e x hx]
      refine ⟨iff_of_false (by simp) (by omega), iff_of_false (by simp) (by omega), ?_,
        iff_of_true ⟨_, rfl⟩ h1⟩
      intro ev
      simp only [Except.ok.injEq]
      constructor
      · intro hev
        refine ⟨h1, ?_, ?_⟩
        · intro pr hpr
          rw [hx, Finset.mem_singleton] at hpr
          rw [hpr, ← hev]
        · rw [← hev]
      · rintro ⟨-, hall, htags⟩
        have hxs : x.2 = ev.start := hall x (by rw [hx]; exact Finset.mem_singleton_self x)
        cases ev
        simp only [Event.mk.injEq]
        exact ⟨hxs.symm ▸ rfl, htags.symm⟩

/-- C7 counterexample: after `remove_start 1 10`, the value `10` is still
visible, because the tombstone names the pair added by patch `1` and patch
`2`'s pair `(2, 10)` survives — removal does depend on which patch added the
value, contradicting "no longer visible regardless of which patch originally
added it". -/
theorem claimC7_counterexample :
    (∃ pr ∈ cexTwoAdders.starts, pr.2 = (10 : Timestamp))
      ∧ cexTwoAdders.starts = {(2, 10)} := by decide

/-- C7 (amended): visibility in a two-phase set is membership in the added
set minus the removed set at the level of `(patch, value)` pairs, and a
removal tombstones exactly the named pair: the same value added by a
different patch remains visible. -/
theorem claimC7_two_phase_by_pair (e : PatchedEvent) (p q : PatchRef) (t : Timestamp)
    (tg : Tag) (hq : q ≠ p) (hvis : (q, t) ∈ e.starts) :
    ((p, t) ∈ e.starts ↔ (p, t) ∈ e.starts_added ∧ (p, t) ∉ e.starts_removed)
    ∧ ((p, tg) ∈ e.tags ↔ (p, tg) ∈ e.tags_added ∧ (p, tg) ∉ e.tags_removed)
    ∧ ((e.remove_start p t).starts = e.starts \ {(p, t)})
    ∧ ((e.remove_tag p tg).tags = e.tags \ {(p, tg)})
    ∧ (q, t) ∈ (e.remove_start p t).starts := by
  have hrs : (e.remove_start p t).starts = e.starts \ {(p, t)} := by
    ext y
    simp only [PatchedEvent.remove_start, PatchedEvent.starts, Finset.mem_sdiff,
      Finset.mem_insert, Finset.mem_singleton]
    tauto
  have hrt : (e.remove_tag p tg).tags = e.tags \ {(p, tg)} := by
    ext y
    simp only [PatchedEvent.remove_tag, PatchedEvent.tags, Finset.mem_sdiff,
      Finset.mem_insert, Finset.mem_singleton]
    tauto
  refine ⟨Finset.mem_sdiff, Finset.mem_sdiff, hrs, hrt, ?_⟩
  rw [hrs, Finset.mem_sdiff]
  refine ⟨hvis, ?_⟩
  simp [hq]

theorem claimC7_witness :
    ((2 : PatchRef) ≠ 1 ∧ ((2 : PatchRef), (10 : Timestamp)) ∈
        (((PatchedEvent.new.add_start 1 10).add_start 2 10)).starts)
      ∧ ((2 : PatchRef), (10 : Timestamp)) ∈
        ((((PatchedEvent.new.add_start 1 10).add_start 2 10)).remove_start 1 10).starts :=
  ⟨⟨by decide, by decide⟩,
    (claimC7_two_phase_by_pair ((PatchedEvent.new.add_start 1 10).add_start 2 10)
      1 2 10 0 (by decide) (by decide)).2.2.2.2⟩

/-- C9: a tag instruction naming an unknown event makes `apply_patch` hit
the defensive `expect` inside `verify_patch` (modelled as `none`): the call
panics before any mutation instead of returning a collected error list. -/
theorem claimC9_tag_unknown_panics (ts : PatchedTimesheet) (p : Patch)
    (h : (∃ a ∈ p.add_tag, alookup a.event ts.events = none)
      ∨ (∃ r ∈ p.remove_tag, alookup r.event ts.events = none)) :
    ts.apply_patch p = none := by
  have htag : tagEventsPresent ts p = false := by
    unfold tagEventsPresent
    rcases h with ⟨a, ha, hnone⟩ | ⟨r, hr, hnone⟩
    · have : ¬ (p.add_tag.all fun a => (alookup a.event ts.events).isSome) = true := by
        simp only [List.all_eq_true]
        intro hall
        have := hall a ha
        rw [hnone] at this
        exact absurd this (by simp)
      simp [Bool.and_eq_true, this]
    · have : ¬ (p.remove_tag.all fun r => (alookup r.event ts.events).isSome) = true := by
        simp only [List.all_eq_true]
        intro hall
        have := hall r hr
        rw [hnone] at this
        exact absurd this (by simp)
      simp [Bool.and_eq_true, this]
  unfold PatchedTimesheet.apply_patch PatchedTimesheet.verify_patch
  rw [htag]
  simp

theorem claimC9_witness :
    ((∃ a ∈ cexPatchStartTag.add_tag, alookup a.event PatchedTimesheet.new.events = none)
      ∨ (∃ r ∈ cexPatchStartTag.remove_tag,
          alookup r.event PatchedTimesheet.new.events = none))
      ∧ PatchedTimesheet.new.apply_patch cexPatchStartTag = none :=
  ⟨by decide, claimC9_tag_unknown_panics PatchedTimesheet.new cexPatchStartTag (by decide)⟩

/-- C8 at its failing input: a patch with two `create_event` instructions
for the same event id passes `verify_patch` (neither names an existing
event) yet the apply phase panics on `assert!(prev_entry.is_none())` after
the first insertion — application does stop partway after verification
succeeded. -/
theorem claimC8_verify_ok_apply_panics :
    PatchedTimesheet.new.verify_patch cexPatchDupCreate = some (Except.ok ())
      ∧ PatchedTimesheet.new.apply_patch cexPatchDupCreate = none := by decide

/-- C10 counterexample: a patch that creates event `7`, adds a start to it
and also tags it, applied to the empty timesheet, does not return an
`UnknownEvent` error — the tag instruction hits the verification panic
first, so `apply_patch` never returns. -/
theorem claimC10_counterexample :
    (7 : EventRef) ∈ createdNames cexPatchCreateTouch
      ∧ (∃ a ∈ cexPatchCreateTouch.add_start, a.event = 7)
      ∧ alookup 7 PatchedTimesheet.new.events = none
      ∧ PatchedTimesheet.new.apply_patch cexPatchCreateTouch = none := by decide

/-- C3 counterexample: a patch with an `add_start` naming a missing event
and an `add_tag` naming a missing event returns no error list at all — the
tag reference panics — although the claim promises an `Err` whenever an
offending start instruction is present. -/
theorem claimC3_counterexample :
    (∃ a ∈ cexPatchStartTag.add_start, alookup a.event PatchedTimesheet.new.events = none)
      ∧ PatchedTimesheet.new.apply_patch cexPatchStartTag = none := by decide

/-- The flatten loop, run with the spec-modelled `Timesheet` map equal to
`event_datetimes_to_refs`, never hits the indexing panic and computes the
spec-side recursion: the two maps receive identical inserts. -/
theorem flattenGo_eq_spec :
    ∀ (es : List (EventRef × PatchedEvent)) (m : List (Timestamp × EventRef))
      (errs : List TsError),
      flattenGo es ⟨m⟩ m errs
        = some (⟨(flattenSpecGo es m errs).1⟩, (flattenSpecGo es m errs).2) := by
  intro es
  induction es with
  | nil => intro m errs; rfl
  | cons hd tl ih =>
    intro m errs
    obtain ⟨r, pe⟩ := hd
    cases hfl : pe.flatten with
    | error src => simp [flattenGo, flattenSpecGo, hfl, ih]
    | ok ev =>
      cases hlk : alookup ev.start m with
      | none => simp [flattenGo, flattenSpecGo, Timesheet.event_at_time, hfl, hlk, ih]
      | some ea => simp [flattenGo, flattenSpecGo, Timesheet.event_at_time, hfl, hlk, ih]

/-- C5 (amended): `PatchedTimesheet.flatten` never panics and equals the
spec-side description `flattenSpec` — it visits every tracked event in map
order, collects one `FlattenEventError` per event whose own flatten fails
and one `DuplicateEventTime` per event whose resolved start equals that of a
previously seen distinct event (naming as `event_a` the most recently seen
earlier event with that start, which is the first-seen one whenever at most
two events share a timestamp), and returns the complete `Timesheet` exactly
when no error accumulated, otherwise the whole error list. -/
theorem claimC5_flatten_refines_spec (ts : PatchedTimesheet) :
    ts.flatten = some (flattenSpec ts) := by
  unfold PatchedTimesheet.flatten flattenSpec
  rw [flattenGo_eq_spec ts.events [] []]
  rcases h : flattenSpecGo ts.events [] [] with ⟨seen, errlist⟩
  cases errlist <;> simp

/-! ## Lemmas: verification -/

theorem list_all_congr {α : Type} (f g : α → Bool) (l : List α)
    (h : ∀ x ∈ l, f x = g x) : l.all f = l.all g := by
  induction l with
  | nil => rfl
  | cons hd tl ih =>
    simp only [List.all_cons, h hd (List.mem_cons_self hd tl),
      ih fun x hx => h x (List.mem_cons_of_mem hd hx)]

theorem mem_referenced_addStart (p : Patch) (a : AddStart) (h : a ∈ p.add_start) :
    a.event ∈ referencedEvents p := by
  simp only [referencedEvents, Finset.mem_union, List.mem_toFinset, List.mem_map]
  exact Or.inl (Or.inl (Or.inl (Or.inl ⟨a, h, rfl⟩)))

theorem mem_referenced_removeStart (p : Patch) (r : RemoveStart) (h : r ∈ p.remove_start) :
    r.event ∈ referencedEvents p := by
  simp only [referencedEvents, Finset.mem_union, List.mem_toFinset, List.mem_map]
  exact Or.inl (Or.inl (Or.inl (Or.inr ⟨r, h, rfl⟩)))

theorem mem_referenced_addTag (p : Patch) (a : AddTag) (h : a ∈ p.add_tag) :
    a.event ∈ referencedEvents p := by
  simp only [referencedEvents, Finset.mem_union, List.mem_toFinset, List.mem_map]
  exact Or.inl (Or.inl (Or.inr ⟨a, h, rfl⟩))

theorem mem_referenced_removeTag (p : Patch) (r : RemoveTag) (h : r ∈ p.remove_tag) :
    r.event ∈ referencedEvents p := by
  simp only [referencedEvents, Finset.mem_union, List.mem_toFinset, List.mem_map]
  exact Or.inl (Or.inr ⟨r, h, rfl⟩)

theorem mem_referenced_create (p : Patch) (c : CreateEvent) (h : c ∈ p.create_event) :
    c.event ∈ referencedEvents p := by
  simp only [referencedEvents, Finset.mem_union, List.mem_toFinset, List.mem_map]
  exact Or.inr ⟨c, h, rfl⟩

theorem mem_referenced_of_created (p : Patch) (e : EventRef) (h : e ∈ createdNames p) :
    e ∈ referencedEvents p := by
  simp only [createdNames, List.mem_map] at h
  obtain ⟨c, hc, rfl⟩ := h
  exact mem_referenced_create p c hc

theorem verifyErrors_eq_nil_iff (ts : PatchedTimesheet) (p : Patch) :
    verifyErrors ts p = [] ↔
      (∀ a ∈ p.add_start, (alookup a.event ts.events).isSome)
        ∧ (∀ r ∈ p.remove_start, (alookup r.event ts.events).isSome)
        ∧ (∀ c ∈ p.create_event, alookup c.event ts.events = none) := by
  unfold verifyErrors
  simp only [List.append_eq_nil, List.filterMap_eq_nil_iff]
  constructor
  · rintro ⟨⟨h1, h2⟩, h3⟩
    refine ⟨fun a ha => ?_, fun r hr => ?_, fun c hc => ?_⟩
    · have := h1 a ha
      cases hl : alookup a.event ts.events with
      | none => rw [hl] at this; exact absurd this (by simp)
      | some v => simp
    · have := h2 r hr
      cases hl : alookup r.event ts.events with
      | none => rw [hl] at this; exact absurd this (by simp)
      | some v => simp
    · have := h3 c hc
      cases hl : alookup c.event ts.events with
      | none => rfl
      | some v => rw [hl] at this; exact absurd this (by simp)
  · rintro ⟨h1, h2, h3⟩
    refine ⟨⟨fun a ha => ?_, fun r hr => ?_⟩, fun c hc => ?_⟩
    · have := h1 a ha
      cases hl : alookup a.event ts.events with
      | none => rw [hl] at this; exact absurd this (by simp)
      | some v => rfl
    · have := h2 r hr
      cases hl : alookup r.event ts.events with
      | none => rw [hl] at this; exact absurd this (by simp)
      | some v => rfl
    · rw [h3 c hc]

theorem verify_patch_eq_none_iff (ts : PatchedTimesheet) (p : Patch) :
    ts.verify_patch p = none ↔ tagEventsPresent ts p = false := by
  unfold PatchedTimesheet.verify_patch
  cases h : tagEventsPresent ts p <;> simp [h]

theorem verify_patch_eq_ok_iff (ts : PatchedTimesheet) (p : Patch) :
    ts.verify_patch p = some (Except.ok ()) ↔
      tagEventsPresent ts p = true ∧ verifyErrors ts p = [] := by
  unfold PatchedTimesheet.verify_patch
  cases h : tagEventsPresent ts p
  · simp [h]
  · by_cases he : verifyErrors ts p = [] <;> simp [h, he]

theorem verify_patch_eq_error_iff (ts : PatchedTimesheet) (p : Patch) (es : List TsError) :
    ts.verify_patch p = some (Except.error es) ↔
      tagEventsPresent ts p = true ∧ verifyErrors ts p = es ∧ es ≠ [] := by
  by_cases h : tagEventsPresent ts p = true
  · have heq : ts.verify_patch p = some
        (if verifyErrors ts p = [] then Except.ok () else Except.error (verifyErrors ts p)) := by
      unfold PatchedTimesheet.verify_patch
      rw [if_pos h]
    rw [heq]
    by_cases he : verifyErrors ts p = []
    · rw [if_pos he]
      constructor
      · intro hc
        exact absurd (Option.some.inj hc) (by simp)
      · rintro ⟨-, h1, h2⟩
        exact absurd (h1 ▸ he) h2
    · rw [if_neg he]
      constructor
      · intro hc
        have h1 := Except.error.inj (Option.some.inj hc)
        exact ⟨h, h1, fun hnil => he (h1.trans hnil)⟩
      · rintro ⟨-, rfl, -⟩
        rfl
  · have heq : ts.verify_patch p = none := by
      unfold PatchedTimesheet.verify_patch
      rw [if_neg h]
    rw [heq]
    simp [h]

theorem tagEventsPresent_congr (s1 s2 : PatchedTimesheet) (p : Patch)
    (h : ∀ e ∈ referencedEvents p, (alookup e s2.events).isSome = (alookup e s1.events).isSome) :
    tagEventsPresent s2 p = tagEventsPresent s1 p := by
  unfold tagEventsPresent
  rw [list_all_congr _ _ p.add_tag fun a ha => h a.event (mem_referenced_addTag p a ha),
    list_all_congr _ _ p.remove_tag fun r hr => h r.event (mem_referenced_removeTag p r hr)]

theorem verifyErrors_congr (s1 s2 : PatchedTimesheet) (p : Patch)
    (h : ∀ e ∈ referencedEvents p, (alookup e s2.events).isSome = (alookup e s1.events).isSome) :
    verifyErrors s2 p = verifyErrors s1 p := by
  unfold verifyErrors
  congr 1
  · congr 1
    · refine List.filterMap_congr fun a ha => ?_
      have he := h a.event (mem_referenced_addStart p a ha)
      cases h1 : alookup a.event s1.events <;> cases h2 : alookup a.event s2.events
      · rfl
      · rw [h1, h2] at he; simp at he
      · rw [h1, h2] at he; simp at he
      · rfl
    · refine List.filterMap_congr fun r hr => ?_
      have he := h r.event (mem_referenced_removeStart p r hr)
      cases h1 : alookup r.event s1.events <;> cases h2 : alookup r.event s2.events
      · rfl
      · rw [h1, h2] at he; simp at he
      · rw [h1, h2] at he; simp at he
      · rfl
  · refine List.filterMap_congr fun c hc => ?_
    have he := h c.event (mem_referenced_create p c hc)
    cases h1 : alookup c.event s1.events <;> cases h2 : alookup c.event s2.events
    · rfl
    · rw [h1, h2] at he; simp at he
    · rw [h1, h2] at he; simp at he
    · rfl

theorem verify_patch_congr (s1 s2 : PatchedTimesheet) (p : Patch)
    (h : ∀ e ∈ referencedEvents p, (alookup e s2.events).isSome = (alookup e s1.events).isSome) :
    s2.verify_patch p = s1.verify_patch p := by
  unfold PatchedTimesheet.verify_patch
  rw [tagEventsPresent_congr s1 s2 p h, verifyErrors_congr s1 s2 p h]

/-! ## Lemmas: per-event effect of the instruction loops -/

theorem unionOver_nil {α : Type} (f : α → Finset PatchRef) : unionOver f [] = ∅ := rfl

theorem unionOver_cons {α : Type} (f : α → Finset PatchRef) (x : α) (L : List α) :
    unionOver f (x :: L) = f x ∪ unionOver f L := rfl

theorem insert_sdiff_chain (S a b : Finset PatchRef) (x : PatchRef) :
    insert x ((insert x (S \ a)) \ b) = insert x (S \ (a ∪ b)) := by
  ext y
  simp only [Finset.mem_insert, Finset.mem_sdiff, Finset.mem_union]
  tauto

theorem effList_addStart (pid : PatchRef) :
    ∀ (L : List AddStart) (ev : PatchedEvent),
      effList (stepAddStart pid) L ev =
        { starts_added := ev.starts_added ∪ (L.map fun a => (pid, a.time)).toFinset,
          starts_removed := ev.starts_removed,
          tags_added := ev.tags_added,
          tags_removed := ev.tags_removed,
          latest_patches := if L = [] then ev.latest_patches
            else insert pid (ev.latest_patches \ unionOver (fun i => i.parents) L) } := by
  intro L
  induction L with
  | nil => intro ev; cases ev; simp [effList]
  | cons x L ih =>
    intro ev
    have hstep : effList (stepAddStart pid) (x :: L) ev
        = effList (stepAddStart pid) L (stepAddStart pid x ev) := rfl
    rw [hstep, ih]
    cases ev
    by_cases hL : L = []
    · subst hL
      simp only [stepAddStart, PatchedEvent.add_start,
        PatchedEvent.add_patch_to_latest, PatchedEvent.remove_patch_from_latest,
        Finset.erase_eq, PatchedEvent.mk.injEq, unionOver_cons, unionOver_nil,
        List.map_cons, List.map_nil, List.toFinset_cons, List.toFinset_nil,
        if_neg (List.cons_ne_nil x []), if_pos rfl]
      repeat' apply And.intro
      all_goals first
      | rfl
      | trivial
      | (ext y; simp [unionOver_cons]; try tauto)
    · simp only [stepAddStart, PatchedEvent.add_start,
        PatchedEvent.add_patch_to_latest, PatchedEvent.remove_patch_from_latest,
        Finset.erase_eq, PatchedEvent.mk.injEq, unionOver_cons,
        List.map_cons, List.toFinset_cons,
        if_neg hL, if_neg (List.cons_ne_nil x L)]
      repeat' apply And.intro
      all_goals first
      | rfl
      | trivial
      | (ext y; simp [unionOver_cons]; try tauto)

theorem effList_removeStart (pid : PatchRef) :
    ∀ (L : List RemoveStart) (ev : PatchedEvent),
      effList (stepRemoveStart pid) L ev =
        { starts_added := ev.starts_added,
          starts_removed := ev.starts_removed ∪ (L.map fun r => (r.patch, r.time)).toFinset,
          tags_added := ev.tags_added,
          tags_removed := ev.tags_removed,
          latest_patches := if L = [] then ev.latest_patches
            else insert pid (ev.latest_patches \ unionOver (fun i => insert i.patch i.parentsSet) L) } := by
  intro L
  induction L with
  | nil => intro ev; cases ev; simp [effList]
  | cons x L ih =>
    intro ev
    have hstep : effList (stepRemoveStart pid) (x :: L) ev
        = effList (stepRemoveStart pid) L (stepRemoveStart pid x ev) := rfl
    rw [hstep, ih]
    cases ev
    by_cases hL : L = []
    · subst hL
      simp only [stepRemoveStart, PatchedEvent.remove_start,
        PatchedEvent.add_patch_to_latest, PatchedEvent.remove_patch_from_latest,
        Finset.erase_eq, PatchedEvent.mk.injEq, unionOver_cons, unionOver_nil,
        List.map_cons, List.map_nil, List.toFinset_cons, List.toFinset_nil,
        if_neg (List.cons_ne_nil x []), if_pos rfl]
      repeat' apply And.intro
      all_goals first
      | rfl
      | trivial
      | (ext y; simp [unionOver_cons]; try tauto)
    · simp only [stepRemoveStart, PatchedEvent.remove_start,
        PatchedEvent.add_patch_to_latest, PatchedEvent.remove_patch_from_latest,
        Finset.erase_eq, PatchedEvent.mk.injEq, unionOver_cons,
        List.map_cons, List.toFinset_cons,
        if_neg hL, if_neg (List.cons_ne_nil x L)]
      repeat' apply And.intro
      all_goals first
      | rfl
      | trivial
      | (ext y; simp [unionOver_cons]; try tauto)

theorem effList_addTag (pid : PatchRef) :
    ∀ (L : List AddTag) (ev : PatchedEvent),
      effList (stepAddTag pid) L ev =
        { starts_added := ev.starts_added,
          starts_removed := ev.starts_removed,
          tags_added := ev.tags_added ∪ (L.map fun a => (pid, a.tag)).toFinset,
          tags_removed := ev.tags_removed,
          latest_patches := if L = [] then ev.latest_patches
            else insert pid (ev.latest_patches \ unionOver (fun i => i.parents) L) } := by
  intro L
  induction L with
  | nil => intro ev; cases ev; simp [effList]
  | cons x L ih =>
    intro ev
    have hstep : effList (stepAddTag pid) (x :: L) ev
        = effList (stepAddTag pid) L (stepAddTag pid x ev) := rfl
    rw [hstep, ih]
    cases ev
    by_cases hL : L = []
    · subst hL
      simp only [stepAddTag, PatchedEvent.add_tag,
        PatchedEvent.add_patch_to_latest, PatchedEvent.remove_patch_from_latest,
        Finset.erase_eq, PatchedEvent.mk.injEq, unionOver_cons, unionOver_nil,
        List.map_cons, List.map_nil, List.toFinset_cons, List.toFinset_nil,
        if_neg (List.cons_ne_nil x []), if_pos rfl]
      repeat' apply And.intro
      all_goals first
      | rfl
      | trivial
      | (ext y; simp [unionOver_cons]; try tauto)
    · simp only [stepAddTag, PatchedEvent.add_tag,
        PatchedEvent.add_patch_to_latest, PatchedEvent.remove_patch_from_latest,
        Finset.erase_eq, PatchedEvent.mk.injEq, unionOver_cons,
        List.map_cons, List.toFinset_cons,
        if_neg hL, if_neg (List.cons_ne_nil x L)]
      repeat' apply And.intro
      all_goals first
      | rfl
      | trivial
      | (ext y; simp [unionOver_cons]; try tauto)

theorem effList_removeTag (pid : PatchRef) :
    ∀ (L : List RemoveTag) (ev : PatchedEvent),
      effList (stepRemoveTag pid) L ev =
        { starts_added := ev.starts_added,
          starts_removed := ev.starts_removed,
          tags_added := ev.tags_added,
          tags_removed := ev.tags_removed ∪ (L.map fun r => (r.patch, r.tag)).toFinset,
          latest_patches := if L = [] then ev.latest_patches
            else insert pid (ev.latest_patches \ unionOver (fun i => insert i.patch i.parentsSet) L) } := by
  intro L
  induction L with
  | nil => intro ev; cases ev; simp [effList]
  | cons x L ih =>
    intro ev
    have hstep : effList (stepRemoveTag pid) (x :: L) ev
        = effList (stepRemoveTag pid) L (stepRemoveTag pid x ev) := rfl
    rw [hstep, ih]
    cases ev
    by_cases hL : L = []
    · subst hL
      simp only [stepRemoveTag, PatchedEvent.remove_tag,
        PatchedEvent.add_patch_to_latest, PatchedEvent.remove_patch_from_latest,
        Finset.erase_eq, PatchedEvent.mk.injEq, unionOver_cons, unionOver_nil,
        List.map_cons, List.map_nil, List.toFinset_cons, List.toFinset_nil,
        if_neg (List.cons_ne_nil x []), if_pos rfl]
      repeat' apply And.intro
      all_goals first
      | rfl
      | trivial
      | (ext y; simp [unionOver_cons]; try tauto)
    · simp only [stepRemoveTag, PatchedEvent.remove_tag,
        PatchedEvent.add_patch_to_latest, PatchedEvent.remove_patch_from_latest,
        Finset.erase_eq, PatchedEvent.mk.injEq, unionOver_cons,
        List.map_cons, List.toFinset_cons,
        if_neg hL, if_neg (List.cons_ne_nil x L)]
      repeat' apply And.intro
      all_goals first
      | rfl
      | trivial
      | (ext y; simp [unionOver_cons]; try tauto)


theorem list_any_of_filter_ne {α : Type} (f : α → Bool) (l : List α)
    (h : l.filter f ≠ []) : l.any f = true := by
  cases hx : l.filter f with
  | nil => exact absurd hx h
  | cons y ys =>
    have hy : y ∈ l.filter f := by rw [hx]; exact List.mem_cons_self y ys
    rw [List.mem_filter] at hy
    rw [List.any_eq_true]
    exact ⟨y, hy.1, hy.2⟩

theorem touchesEdit_eq_false_iff (p : Patch) (e : EventRef) :
    touchesEdit p e = false ↔
      ((p.add_start.filter fun a => a.event == e) = []
        ∧ (p.remove_start.filter fun r => r.event == e) = []
        ∧ (p.add_tag.filter fun a => a.event == e) = []
        ∧ (p.remove_tag.filter fun r => r.event == e) = []) := by
  unfold touchesEdit
  simp only [Bool.or_eq_false_iff, List.any_eq_false, List.filter_eq_nil_iff]
  tauto

/-- Composing two conditional frontier updates gives one conditional update
with the union of the removed sets, provided an inactive stage removes
nothing. -/
theorem cond_compose (pid : PatchRef) (S : Finset PatchRef) (c1 c2 : Prop)
    [Decidable c1] [Decidable c2] (P1 P2 : Finset PatchRef)
    (hP1 : c1 → P1 = ∅) (hP2 : c2 → P2 = ∅) :
    (if c2 then (if c1 then S else insert pid (S \ P1))
      else insert pid ((if c1 then S else insert pid (S \ P1)) \ P2))
      = if c1 ∧ c2 then S else insert pid (S \ (P1 ∪ P2)) := by
  by_cases h1 : c1 <;> by_cases h2 : c2
  · rw [if_pos h2, if_pos h1, if_pos ⟨h1, h2⟩]
  · rw [if_neg h2, if_pos h1, if_neg (fun h => h2 h.2), hP1 h1, Finset.empty_union]
  · rw [if_pos h2, if_neg h1, if_neg (fun h => h1 h.1), hP2 h2, Finset.union_empty]
  · rw [if_neg h2, if_neg h1, if_neg (fun h => h1 h.1), insert_sdiff_chain]

/-- The four instruction loops of `apply_patch`, restricted to the
instructions targeting one event, compose to `patchEffect`. -/
theorem patchEffect_eq_fourfold (p : Patch) (e : EventRef) (ev : PatchedEvent) :
    effList (stepRemoveTag p.id) (p.remove_tag.filter fun r => r.event == e)
      (effList (stepAddTag p.id) (p.add_tag.filter fun a => a.event == e)
        (effList (stepRemoveStart p.id) (p.remove_start.filter fun r => r.event == e)
          (effList (stepAddStart p.id) (p.add_start.filter fun a => a.event == e) ev)))
      = patchEffect p e ev := by
  rw [effList_addStart, effList_removeStart, effList_addTag, effList_removeTag]
  unfold patchEffect
  dsimp only
  rw [cond_compose p.id ev.latest_patches _ _ _ _
    (fun h => by rw [h]; rfl) (fun h => by rw [h]; rfl)]
  rw [cond_compose p.id ev.latest_patches _ _ _ _
    (fun h => by rw [h.1, h.2]; simp [unionOver_nil]) (fun h => by rw [h]; rfl)]
  rw [cond_compose p.id ev.latest_patches _ _ _ _
    (fun h => by rw [h.1.1, h.1.2, h.2]; simp [unionOver_nil]) (fun h => by rw [h]; rfl)]
  simp only [PatchedEvent.mk.injEq]
  refine ⟨trivial, trivial, trivial, trivial, ?_⟩
  by_cases hb : touchesEdit p e = true
  · rw [if_pos hb, if_neg ?_]
    · rfl
    · intro hconj
      have := (touchesEdit_eq_false_iff p e).2 ⟨hconj.1.1.1, hconj.1.1.2, hconj.1.2, hconj.2⟩
      rw [this] at hb
      exact absurd hb (by simp)
  · rw [if_neg hb, if_pos ?_]
    · have hfalse : touchesEdit p e = false := by
        cases h : touchesEdit p e
        · rfl
        · exact absurd h hb
      obtain ⟨h1, h2, h3, h4⟩ := (touchesEdit_eq_false_iff p e).1 hfalse
      exact ⟨⟨⟨h1, h2⟩, h3⟩, h4⟩

/-! ## Lemmas: the instruction loops over the event map -/

theorem alookup_aupdate_isSome {κ ω : Type} [DecidableEq κ] (k e : κ) (f : ω → ω)
    (l : List (κ × ω)) : (alookup e (aupdate k f l)).isSome = (alookup e l).isSome := by
  rw [alookup_aupdate]
  by_cases he : e = k
  · subst he
    simp [Option.isSome_map]
  · rw [if_neg he]

theorem applySeq_applyInstr_facts {α : Type} (eventOf : α → EventRef)
    (step : α → PatchedEvent → PatchedEvent) :
    ∀ (xs : List α) (ts t : PatchedTimesheet),
      applySeq (applyInstr eventOf step) xs ts = some t →
      (∀ e, alookup e t.events
          = (alookup e ts.events).map (effList step (xs.filter fun x => eventOf x == e)))
        ∧ akeys t.events = akeys ts.events
        ∧ (∀ x ∈ xs, (alookup (eventOf x) ts.events).isSome) := by
  intro xs
  induction xs with
  | nil =>
    intro ts t h
    have ht : ts = t := by
      rw [applySeq] at h
      exact Option.some.inj h
    subst ht
    refine ⟨fun e => ?_, rfl, by simp⟩
    rw [List.filter_nil]
    cases alookup e ts.events <;> rfl
  | cons x xs ih =>
    intro ts t h
    rw [applySeq] at h
    cases hx : applyInstr eventOf step x ts with
    | none => rw [hx] at h; exact absurd h (by simp)
    | some ts1 =>
      rw [hx] at h
      obtain ⟨hl, hk, hall⟩ := ih ts1 t h
      unfold applyInstr at hx
      cases hlk : alookup (eventOf x) ts.events with
      | none => rw [hlk] at hx; exact absurd hx (by simp)
      | some v =>
        rw [hlk] at hx
        have hts1 : ts1 = ⟨aupdate (eventOf x) (step x) ts.events⟩ :=
          (Option.some.inj hx).symm
        subst hts1
        refine ⟨fun e => ?_, ?_, ?_⟩
        · rw [hl e]
          by_cases he : eventOf x = e
          · subst he
            show (alookup (eventOf x) (aupdate (eventOf x) (step x) ts.events)).map _ = _
            rw [alookup_aupdate, if_pos rfl, hlk,
              List.filter_cons_of_pos (by simp)]
            rfl
          · show (alookup e (aupdate (eventOf x) (step x) ts.events)).map _ = _
            rw [alookup_aupdate, if_neg (fun hh => he hh.symm),
              List.filter_cons_of_neg (by simp [he])]
        · rw [hk]
          exact akeys_aupdate (eventOf x) (step x) ts.events
        · intro y hy
          rcases List.mem_cons.1 hy with hy1 | hmem
          · rw [hy1, hlk]; simp
          · have hys := hall y hmem
            show (alookup (eventOf y) ts.events).isSome
            rw [← alookup_aupdate_isSome (eventOf x) (eventOf y) (step x) ts.events]
            exact hys

theorem applySeq_applyInstr_isSome {α : Type} (eventOf : α → EventRef)
    (step : α → PatchedEvent → PatchedEvent) :
    ∀ (xs : List α) (ts : PatchedTimesheet),
      (∀ x ∈ xs, (alookup (eventOf x) ts.events).isSome) →
      ∃ t, applySeq (applyInstr eventOf step) xs ts = some t := by
  intro xs
  induction xs with
  | nil => intro ts _; exact ⟨ts, rfl⟩
  | cons x xs ih =>
    intro ts hall
    have hx := hall x (List.mem_cons_self x xs)
    cases hlk : alookup (eventOf x) ts.events with
    | none => rw [hlk] at hx; exact absurd hx (by simp)
    | some v =>
      have hnext : ∀ y ∈ xs, (alookup (eventOf y)
          (aupdate (eventOf x) (step x) ts.events)).isSome := by
        intro y hy
        rw [alookup_aupdate_isSome]
        exact hall y (List.mem_cons_of_mem x hy)
      obtain ⟨t, ht⟩ := ih ⟨aupdate (eventOf x) (step x) ts.events⟩ hnext
      refine ⟨t, ?_⟩
      rw [applySeq]
      have : applyInstr eventOf step x ts
          = some ⟨aupdate (eventOf x) (step x) ts.events⟩ := by
        unfold applyInstr
        rw [hlk]
      rw [this]
      exact ht

theorem chain_ainsert {κ ω : Type} [LinearOrder κ] (k : κ) (v : ω) (l : List (κ × ω))
    (h : List.Chain' (fun a b => a < b) (akeys l)) :
    List.Chain' (fun a b => a < b) (akeys (ainsert k v l)) := by
  rw [akeys_ainsert]
  rw [List.chain'_iff_pairwise] at h ⊢
  exact pairwise_kinsert k _ h

theorem applySeq_applyCreate_facts (pid : PatchRef) :
    ∀ (cs : List CreateEvent) (ts t : PatchedTimesheet),
      applySeq (applyCreate pid) cs ts = some t →
      (∀ e, e ∉ cs.map CreateEvent.event → alookup e t.events = alookup e ts.events)
        ∧ (∀ c ∈ cs, alookup c.event ts.events = none)
        ∧ (cs.map CreateEvent.event).Nodup
        ∧ (∀ c ∈ cs, alookup c.event t.events = some (seedEvent pid c))
        ∧ (List.Chain' (fun a b => a < b) (akeys ts.events) →
            List.Chain' (fun a b => a < b) (akeys t.events))
        ∧ (∀ e, ((alookup e t.events).isSome = true
            ↔ ((alookup e ts.events).isSome = true ∨ e ∈ cs.map CreateEvent.event))) := by
  intro cs
  induction cs with
  | nil =>
    intro ts t h
    have ht : ts = t := by
      rw [applySeq] at h
      exact Option.some.inj h
    subst ht
    exact ⟨fun e _ => rfl, by simp, by simp, by simp, fun hs => hs, fun e => by simp⟩
  | cons c cs ih =>
    intro ts t h
    rw [applySeq] at h
    cases hx : applyCreate pid c ts with
    | none => rw [hx] at h; exact absurd h (by simp)
    | some ts1 =>
      rw [hx] at h
      unfold applyCreate at hx
      cases hlk : alookup c.event ts.events with
      | some v => rw [hlk] at hx; exact absurd hx (by simp)
      | none =>
        rw [hlk] at hx
        have hts1 : ts1 = ⟨ainsert c.event (seedEvent pid c) ts.events⟩ :=
          (Option.some.inj hx).symm
        subst hts1
        obtain ⟨h1, h2, h3, h4, h5, h6⟩ := ih _ t h
        have hlk1 : ∀ e, alookup e (ainsert c.event (seedEvent pid c) ts.events)
            = if e = c.event then some (seedEvent pid c) else alookup e ts.events :=
          fun e => alookup_ainsert c.event e (seedEvent pid c) ts.events
        have hcnotin : c.event ∉ cs.map CreateEvent.event := by
          intro hmem
          obtain ⟨c2, hc2, he2⟩ := List.mem_map.1 hmem
          have := h2 c2 hc2
          rw [hlk1, if_pos he2] at this
          exact absurd this (by simp)
        refine ⟨fun e he => ?_, fun c2 hc2 => ?_, ?_, fun c2 hc2 => ?_, fun hs => ?_, fun e => ?_⟩
        · rw [List.map_cons, List.mem_cons] at he
          push_neg at he
          rw [h1 e he.2, hlk1, if_neg he.1]
        · rcases List.mem_cons.1 hc2 with hc2e | hc2m
          · rw [hc2e]; exact hlk
          · have := h2 c2 hc2m
            rw [hlk1] at this
            by_cases heq : c2.event = c.event
            · rw [if_pos heq] at this; exact absurd this (by simp)
            · rw [if_neg heq] at this; exact this
        · rw [List.map_cons, List.nodup_cons]
          exact ⟨hcnotin, h3⟩
        · rcases List.mem_cons.1 hc2 with hc2e | hc2m
          · subst hc2e
            rw [h1 c2.event (by exact hcnotin), hlk1, if_pos rfl]
          · exact h4 c2 hc2m
        · exact h5 (chain_ainsert c.event (seedEvent pid c) ts.events hs)
        · rw [h6 e, List.map_cons, List.mem_cons]
          by_cases he : e = c.event
          · rw [hlk1, if_pos he]
            simp [he]
          · rw [hlk1, if_neg he]
            constructor
            · rintro (hh | hh)
              · exact Or.inl hh
              · exact Or.inr (Or.inr hh)
            · rintro (hh | hh | hh)
              · exact Or.inl hh
              · exact absurd hh he
              · exact Or.inr hh

theorem applySeq_applyCreate_isSome (pid : PatchRef) :
    ∀ (cs : List CreateEvent) (ts : PatchedTimesheet),
      (cs.map CreateEvent.event).Nodup →
      (∀ c ∈ cs, alookup c.event ts.events = none) →
      ∃ t, applySeq (applyCreate pid) cs ts = some t := by
  intro cs
  induction cs with
  | nil => intro ts _ _; exact ⟨ts, rfl⟩
  | cons c cs ih =>
    intro ts hnd hfresh
    rw [List.map_cons, List.nodup_cons] at hnd
    have hlk := hfresh c (List.mem_cons_self c cs)
    have hnext : ∀ c2 ∈ cs, alookup c2.event
        (ainsert c.event (seedEvent pid c) ts.events) = none := by
      intro c2 hc2
      rw [alookup_ainsert, if_neg ?_]
      · exact hfresh c2 (List.mem_cons_of_mem c hc2)
      · intro heq
        exact hnd.1 (heq ▸ List.mem_map_of_mem CreateEvent.event hc2)
    obtain ⟨t, ht⟩ := ih ⟨ainsert c.event (seedEvent pid c) ts.events⟩ hnd.2 hnext
    refine ⟨t, ?_⟩
    rw [applySeq]
    have : applyCreate pid c ts = some ⟨ainsert c.event (seedEvent pid c) ts.events⟩ := by
      unfold applyCreate
      rw [hlk]
    rw [this]
    exact ht

/-- C5 counterexample: three events all resolving to start `10` produce the
errors `[DuplicateEventTime 1 2, DuplicateEventTime 2 3]` — the second
collision names event `2`, the most recently seen holder of that timestamp,
as `event_a`, not the first-seen event `1` as the claim states. -/
theorem claimC5_counterexample :
    cexThreeSameStart.flatten = some (Except.error
      [TsError.DuplicateEventTime 1 2, TsError.DuplicateEventTime 2 3])
      ∧ TsError.DuplicateEventTime 1 3
        ∉ [TsError.DuplicateEventTime 1 2, TsError.DuplicateEventTime 2 3] := by decide

/-! ## Lemmas: apply_patch characterization -/

theorem bool_eq_of_iff {a b : Bool} (h : a = true ↔ b = true) : a = b := by
  cases a <;> cases b <;> simp_all

theorem apply_patch_of_verify_error (ts : PatchedTimesheet) (p : Patch) (es : List TsError)
    (h : ts.verify_patch p = some (Except.error es)) :
    ts.apply_patch p = some (Except.error es) := by
  unfold PatchedTimesheet.apply_patch
  rw [h]

theorem apply_patch_of_verify_none (ts : PatchedTimesheet) (p : Patch)
    (h : ts.verify_patch p = none) : ts.apply_patch p = none := by
  unfold PatchedTimesheet.apply_patch
  rw [h]

theorem apply_patch_error_iff (ts : PatchedTimesheet) (p : Patch) (es : List TsError) :
    ts.apply_patch p = some (Except.error es) ↔ ts.verify_patch p = some (Except.error es) := by
  constructor
  · intro h
    unfold PatchedTimesheet.apply_patch at h
    cases hv : ts.verify_patch p with
    | none => rw [hv] at h; exact absurd h (by simp)
    | some r =>
      cases r with
      | error es2 =>
        rw [hv] at h
        have h2 : some (Except.error es2) = some (Except.error es) := h
        rw [Except.error.inj (Option.some.inj h2)]
      | ok u =>
        rw [hv] at h
        obtain ⟨t4, -, habs⟩ := Option.map_eq_some'.1 h
        exact absurd habs (by simp)
  · exact apply_patch_of_verify_error ts p es

theorem apply_patch_ok_facts (ts t : PatchedTimesheet) (p : Patch)
    (h : ts.apply_patch p = some (Except.ok t)) :
    (∀ e, e ∉ createdNames p →
        alookup e t.events = (alookup e ts.events).map (patchEffect p e))
    ∧ (∀ c ∈ p.create_event, alookup c.event ts.events = none
        ∧ alookup c.event t.events = some (seedEvent p.id c))
    ∧ (createdNames p).Nodup
    ∧ (SortedKeys ts → SortedKeys t)
    ∧ (∀ e, ((alookup e t.events).isSome = true
        ↔ ((alookup e ts.events).isSome = true ∨ e ∈ createdNames p)))
    ∧ ts.verify_patch p = some (Except.ok ()) := by
  unfold PatchedTimesheet.apply_patch at h
  cases hv : ts.verify_patch p with
  | none => rw [hv] at h; exact absurd h (by simp)
  | some r =>
    cases r with
    | error es => rw [hv] at h; simp at h
    | ok u =>
      cases u
      rw [hv] at h
      obtain ⟨t4, hchain, hok⟩ := Option.map_eq_some'.1 h
      have ht4 : t4 = t := Except.ok.inj hok
      subst ht4
      obtain ⟨t3p, hchain3, hcreate⟩ := Option.bind_eq_some.1 hchain
      obtain ⟨t2p, hchain2, hloop4⟩ := Option.bind_eq_some.1 hchain3
      obtain ⟨t1p, hchain1, hloop3⟩ := Option.bind_eq_some.1 hchain2
      obtain ⟨t0p, hloop1, hloop2⟩ := Option.bind_eq_some.1 hchain1
      obtain ⟨hl1, hk1, -⟩ := applySeq_applyInstr_facts _ _ _ _ _ hloop1
      obtain ⟨hl2, hk2, -⟩ := applySeq_applyInstr_facts _ _ _ _ _ hloop2
      obtain ⟨hl3, hk3, -⟩ := applySeq_applyInstr_facts _ _ _ _ _ hloop3
      obtain ⟨hl4, hk4, -⟩ := applySeq_applyInstr_facts _ _ _ _ _ hloop4
      obtain ⟨hc1, hc2, hc3, hc4, hc5, hc6⟩ := applySeq_applyCreate_facts _ _ _ _ hcreate
      have hedit : ∀ e, alookup e t3p.events
          = (alookup e ts.events).map (patchEffect p e) := by
        intro e
        rw [hl4 e, hl3 e, hl2 e, hl1 e]
        cases alookup e ts.events with
        | none => rfl
        | some v =>
          simp only [Option.map_some']
          rw [patchEffect_eq_fourfold p e v]
      have hfresh_ts : ∀ c ∈ p.create_event, alookup c.event ts.events = none := by
        intro c hc
        have := hc2 c hc
        rw [hedit c.event] at this
        exact Option.map_eq_none'.1 this
      refine ⟨fun e he => ?_, fun c hc => ⟨hfresh_ts c hc, ?_⟩, hc3, fun hsort => ?_, fun e => ?_, rfl⟩
      · rw [hc1 e he, hedit e]
      · exact hc4 c hc
      · have hs2 : List.Chain' (fun a b => a < b) (akeys t3p.events) := by
          unfold SortedKeys at hsort
          rw [hk4, hk3, hk2, hk1]
          exact hsort
        exact hc5 hs2
      · rw [hc6 e]
        have hsm : (alookup e t3p.events).isSome = (alookup e ts.events).isSome := by
          rw [hedit e]
          cases alookup e ts.events <;> rfl
        rw [hsm]
        exact Iff.rfl

theorem apply_patch_ok_of (ts : PatchedTimesheet) (p : Patch)
    (hv : ts.verify_patch p = some (Except.ok ()))
    (hnd : (createdNames p).Nodup) :
    ∃ t, ts.apply_patch p = some (Except.ok t) := by
  obtain ⟨htag, herr⟩ := (verify_patch_eq_ok_iff ts p).1 hv
  obtain ⟨hpresAS, hpresRS, hfresh⟩ := (verifyErrors_eq_nil_iff ts p).1 herr
  rw [tagEventsPresent, Bool.and_eq_true, List.all_eq_true, List.all_eq_true] at htag
  obtain ⟨t0, h0⟩ := applySeq_applyInstr_isSome AddStart.event (stepAddStart p.id)
    p.add_start ts hpresAS
  obtain ⟨hl0, -, -⟩ := applySeq_applyInstr_facts _ _ _ _ _ h0
  have hpres0 : ∀ e, (alookup e t0.events).isSome = (alookup e ts.events).isSome := by
    intro e
    rw [hl0 e]
    cases alookup e ts.events <;> rfl
  obtain ⟨t1, h1⟩ := applySeq_applyInstr_isSome RemoveStart.event (stepRemoveStart p.id)
    p.remove_start t0 (fun r hr => by rw [hpres0]; exact hpresRS r hr)
  obtain ⟨hl1, -, -⟩ := applySeq_applyInstr_facts _ _ _ _ _ h1
  have hpres1 : ∀ e, (alookup e t1.events).isSome = (alookup e ts.events).isSome := by
    intro e
    rw [hl1 e, ← hpres0 e]
    cases alookup e t0.events <;> rfl
  obtain ⟨t2, h2⟩ := applySeq_applyInstr_isSome AddTag.event (stepAddTag p.id)
    p.add_tag t1 (fun a ha => by rw [hpres1]; exact htag.1 a ha)
  obtain ⟨hl2, -, -⟩ := applySeq_applyInstr_facts _ _ _ _ _ h2
  have hpres2 : ∀ e, (alookup e t2.events).isSome = (alookup e ts.events).isSome := by
    intro e
    rw [hl2 e, ← hpres1 e]
    cases alookup e t1.events <;> rfl
  obtain ⟨t3, h3⟩ := applySeq_applyInstr_isSome RemoveTag.event (stepRemoveTag p.id)
    p.remove_tag t2 (fun r hr => by rw [hpres2]; exact htag.2 r hr)
  obtain ⟨hl3, -, -⟩ := applySeq_applyInstr_facts _ _ _ _ _ h3
  have hpres3 : ∀ e, (alookup e t3.events).isSome = (alookup e ts.events).isSome := by
    intro e
    rw [hl3 e, ← hpres2 e]
    cases alookup e t2.events <;> rfl
  obtain ⟨t4, h4⟩ := applySeq_applyCreate_isSome p.id p.create_event t3 hnd
    (fun c hc => by
      have hnone := hfresh c hc
      have := hpres3 c.event
      rw [hnone] at this
      cases hcl : alookup c.event t3.events
      · rfl
      · rw [hcl] at this; exact absurd this (by simp))
  refine ⟨t4, ?_⟩
  unfold PatchedTimesheet.apply_patch
  rw [hv]
  rw [h0, Option.some_bind, h1, Option.some_bind, h2, Option.some_bind, h3,
    Option.some_bind, h4]
  rfl

theorem apply_patch_none_char (ts : PatchedTimesheet) (p : Patch) :
    ts.apply_patch p = none ↔ (ts.verify_patch p = none
      ∨ (ts.verify_patch p = some (Except.ok ()) ∧ ¬(createdNames p).Nodup)) := by
  constructor
  · intro h
    cases hv : ts.verify_patch p with
    | none => exact Or.inl rfl
    | some r =>
      cases r with
      | error es =>
        have happ := apply_patch_of_verify_error ts p es hv
        rw [h] at happ
        exact absurd happ (by simp)
      | ok u =>
        cases u
        refine Or.inr ⟨rfl, fun hnd => ?_⟩
        obtain ⟨t, ht⟩ := apply_patch_ok_of ts p hv hnd
        rw [h] at ht
        exact absurd ht (by simp)
  · rintro (hv | ⟨hv, hnd⟩)
    · exact apply_patch_of_verify_none ts p hv
    · cases happ : ts.apply_patch p with
      | none => rfl
      | some r =>
        cases r with
        | error es =>
          rw [apply_patch_error_iff] at happ
          exact absurd (hv.symm.trans happ) (by simp)
        | ok t =>
          obtain ⟨-, -, hnd2, -⟩ := apply_patch_ok_facts ts t p happ
          exact absurd hnd2 hnd

theorem apply_patch_transfer (s1 s2 : PatchedTimesheet) (p : Patch)
    (hpres : ∀ e ∈ referencedEvents p,
      (alookup e s2.events).isSome = (alookup e s1.events).isSome) :
    (s2.apply_patch p = none ↔ s1.apply_patch p = none)
    ∧ (∀ es, s2.apply_patch p = some (Except.error es)
        ↔ s1.apply_patch p = some (Except.error es)) := by
  have hvc := verify_patch_congr s1 s2 p hpres
  constructor
  · rw [apply_patch_none_char, apply_patch_none_char, hvc]
  · intro es
    rw [apply_patch_error_iff, apply_patch_error_iff, hvc]

/-! ## Lemmas: the verification error list in filter/map form -/

theorem filterMap_match_none_eq {α : Type} (l : List α) (look : α → Option PatchedEvent)
    (mk : α → TsError) :
    (l.filterMap fun a => match look a with | some _ => none | none => some (mk a))
      = (l.filter fun a => (look a).isNone).map mk := by
  induction l with
  | nil => rfl
  | cons x xs ih =>
    cases hx : look x with
    | none => simp [List.filterMap_cons, List.filter_cons, hx, ih]
    | some v => simp [List.filterMap_cons, List.filter_cons, hx, ih]

theorem filterMap_match_some_eq {α : Type} (l : List α) (look : α → Option PatchedEvent)
    (mk : α → TsError) :
    (l.filterMap fun a => match look a with | some _ => some (mk a) | none => none)
      = (l.filter fun a => (look a).isSome).map mk := by
  induction l with
  | nil => rfl
  | cons x xs ih =>
    cases hx : look x with
    | none => simp [List.filterMap_cons, List.filter_cons, hx, ih]
    | some v => simp [List.filterMap_cons, List.filter_cons, hx, ih]

theorem verifyErrors_eq (ts : PatchedTimesheet) (p : Patch) :
    verifyErrors ts p =
      ((p.add_start.filter fun a => (alookup a.event ts.events).isNone).map
          fun a => TsError.UnknownEvent p.id a.event)
        ++ ((p.remove_start.filter fun r => (alookup r.event ts.events).isNone).map
          fun r => TsError.UnknownEvent p.id r.event)
        ++ ((p.create_event.filter fun c => (alookup c.event ts.events).isSome).map
          fun c => TsError.DuplicateEventId c.event) := by
  unfold verifyErrors
  rw [filterMap_match_none_eq, filterMap_match_none_eq, filterMap_match_some_eq]

theorem verifyErrors_ne_nil_iff (ts : PatchedTimesheet) (p : Patch) :
    verifyErrors ts p ≠ [] ↔
      ((∃ a ∈ p.add_start, alookup a.event ts.events = none)
        ∨ (∃ r ∈ p.remove_start, alookup r.event ts.events = none)
        ∨ (∃ c ∈ p.create_event, (alookup c.event ts.events).isSome = true)) := by
  rw [Ne, verifyErrors_eq_nil_iff]
  constructor
  · intro h
    rcases not_and_or.1 h with h1 | h23
    · push_neg at h1
      obtain ⟨a, ha, hna⟩ := h1
      exact Or.inl ⟨a, ha, Option.not_isSome_iff_eq_none.1 hna⟩
    · rcases not_and_or.1 h23 with h2 | h3
      · push_neg at h2
        obtain ⟨r, hr, hnr⟩ := h2
        exact Or.inr (Or.inl ⟨r, hr, Option.not_isSome_iff_eq_none.1 hnr⟩)
      · push_neg at h3
        obtain ⟨c, hc, hnc⟩ := h3
        exact Or.inr (Or.inr ⟨c, hc, Option.ne_none_iff_isSome.1 hnc⟩)
  · rintro (⟨a, ha, hna⟩ | ⟨r, hr, hnr⟩ | ⟨c, hc, hnc⟩) ⟨hA, hB, hC⟩
    · have := hA a ha
      rw [hna] at this
      exact absurd this (by simp)
    · have := hB r hr
      rw [hnr] at this
      exact absurd this (by simp)
    · have := hC c hc
      rw [this] at hnc
      exact absurd hnc (by simp)

/-- C3 (amended): provided every tag instruction names an existing event
(otherwise `apply_patch` panics instead of returning — C9), `apply_patch`
returns `Err` exactly when some `add_start`/`remove_start` names a missing
event or some `create_event` names an existing one; the error list holds one
`UnknownEvent` per offending start instruction followed by one
`DuplicateEventId` per offending creation, all violations together, and the
state is left untouched. -/
theorem claimC3_verify_errors (ts : PatchedTimesheet) (p : Patch)
    (htags : tagEventsPresent ts p = true) :
    ((∃ es, ts.apply_patch p = some (Except.error es)) ↔
      ((∃ a ∈ p.add_start, alookup a.event ts.events = none)
        ∨ (∃ r ∈ p.remove_start, alookup r.event ts.events = none)
        ∨ (∃ c ∈ p.create_event, (alookup c.event ts.events).isSome = true)))
    ∧ (∀ es, ts.apply_patch p = some (Except.error es) →
        es = ((p.add_start.filter fun a => (alookup a.event ts.events).isNone).map
            fun a => TsError.UnknownEvent p.id a.event)
          ++ ((p.remove_start.filter fun r => (alookup r.event ts.events).isNone).map
            fun r => TsError.UnknownEvent p.id r.event)
          ++ ((p.create_event.filter fun c => (alookup c.event ts.events).isSome).map
            fun c => TsError.DuplicateEventId c.event)
          ∧ applyKeep ts p = some ts) := by
  constructor
  · rw [← verifyErrors_ne_nil_iff ts p]
    constructor
    · rintro ⟨es, hes⟩
      rw [apply_patch_error_iff, verify_patch_eq_error_iff] at hes
      rw [hes.2.1]
      exact hes.2.2
    · intro hne
      exact ⟨verifyErrors ts p, (apply_patch_error_iff ts p _).2
        ((verify_patch_eq_error_iff ts p _).2 ⟨htags, rfl, hne⟩)⟩
  · intro es hes
    have hes2 := hes
    rw [apply_patch_error_iff, verify_patch_eq_error_iff] at hes2
    refine ⟨?_, ?_⟩
    · rw [← hes2.2.1, verifyErrors_eq]
    · unfold applyKeep
      rw [hes]

theorem claimC3_witness :
    tagEventsPresent PatchedTimesheet.new wPatchCreateTouch = true
      ∧ (∃ es, PatchedTimesheet.new.apply_patch wPatchCreateTouch
          = some (Except.error es)) :=
  ⟨by decide, (claimC3_verify_errors PatchedTimesheet.new wPatchCreateTouch (by decide)).1.2
    (by decide)⟩

/-- C10 (amended): a patch that both creates event `e` and adds/removes a
start for `e`, applied where `e` does not exist — provided its tag
instructions reference existing events — is rejected with an `Err`
containing `UnknownEvent` for `e`, leaving the timesheet unchanged:
verification checks each instruction against the pre-patch event map only. -/
theorem claimC10_create_and_touch_rejected (ts : PatchedTimesheet) (p : Patch) (e : EventRef)
    (htags : tagEventsPresent ts p = true)
    (_hc : e ∈ createdNames p)
    (hs : (∃ a ∈ p.add_start, a.event = e) ∨ (∃ r ∈ p.remove_start, r.event = e))
    (he : alookup e ts.events = none) :
    (∃ es, ts.apply_patch p = some (Except.error es) ∧ TsError.UnknownEvent p.id e ∈ es)
      ∧ applyKeep ts p = some ts := by
  have hne : verifyErrors ts p ≠ [] := by
    rw [verifyErrors_ne_nil_iff]
    rcases hs with ⟨a, ha, hae⟩ | ⟨r, hr, hre⟩
    · exact Or.inl ⟨a, ha, by rw [hae]; exact he⟩
    · exact Or.inr (Or.inl ⟨r, hr, by rw [hre]; exact he⟩)
  have hverr : ts.verify_patch p = some (Except.error (verifyErrors ts p)) :=
    (verify_patch_eq_error_iff ts p _).2 ⟨htags, rfl, hne⟩
  have happ := apply_patch_of_verify_error ts p _ hverr
  refine ⟨⟨verifyErrors ts p, happ, ?_⟩, ?_⟩
  · rw [verifyErrors_eq]
    rcases hs with ⟨a, ha, hae⟩ | ⟨r, hr, hre⟩
    · apply List.mem_append_left
      apply List.mem_append_left
      rw [List.mem_map]
      refine ⟨a, ?_, by rw [hae]⟩
      rw [List.mem_filter]
      refine ⟨ha, ?_⟩
      rw [hae, he]
      rfl
    · apply List.mem_append_left
      apply List.mem_append_right
      rw [List.mem_map]
      refine ⟨r, ?_, by rw [hre]⟩
      rw [List.mem_filter]
      refine ⟨hr, ?_⟩
      rw [hre, he]
      rfl
  · unfold applyKeep
    rw [happ]

theorem claimC10_witness :
    (tagEventsPresent PatchedTimesheet.new wPatchCreateTouch = true
      ∧ (7 : EventRef) ∈ createdNames wPatchCreateTouch
      ∧ ((∃ a ∈ wPatchCreateTouch.add_start, a.event = 7)
        ∨ (∃ r ∈ wPatchCreateTouch.remove_start, r.event = 7))
      ∧ alookup 7 PatchedTimesheet.new.events = none)
      ∧ ((∃ es, PatchedTimesheet.new.apply_patch wPatchCreateTouch
          = some (Except.error es)
          ∧ TsError.UnknownEvent wPatchCreateTouch.id 7 ∈ es)
        ∧ applyKeep PatchedTimesheet.new wPatchCreateTouch
          = some PatchedTimesheet.new) :=
  ⟨⟨by decide, by decide, by decide, by decide⟩,
    claimC10_create_and_touch_rejected PatchedTimesheet.new wPatchCreateTouch 7
      (by decide) (by decide) (by decide) (by decide)⟩

theorem foldl_add_tag (pid : PatchRef) :
    ∀ (tags : List Tag) (ev : PatchedEvent),
      tags.foldl (fun ev t => ev.add_tag pid t) ev
        = { ev with tags_added := ev.tags_added ∪ (tags.map fun tg => (pid, tg)).toFinset } := by
  intro tags
  induction tags with
  | nil => intro ev; cases ev; simp
  | cons t ts ih =>
    intro ev
    rw [List.foldl_cons, ih]
    cases ev
    simp only [PatchedEvent.add_tag, PatchedEvent.mk.injEq, List.map_cons, List.toFinset_cons]
    repeat' apply And.intro
    all_goals first
    | rfl
    | trivial
    | (ext y; simp; try tauto)

theorem seedEvent_eq (pid : PatchRef) (c : CreateEvent) :
    seedEvent pid c = ⟨{(pid, c.start)}, ∅,
      (c.tags.map fun tg => (pid, tg)).toFinset, ∅, {pid}⟩ := by
  unfold seedEvent
  rw [foldl_add_tag]
  simp [PatchedEvent.new, PatchedEvent.add_start, PatchedEvent.add_patch_to_latest]

/-- C6: when `apply_patch` succeeds, every `create_event` instruction left a
fresh event seeded with exactly the creating patch's start and tags and the
frontier `{p.id}`, and every pre-existing event holds its old two-phase sets
extended by the instruction pairs targeting it, with `p.id` added to its
frontier and every cited direct predecessor removed whenever some edit
instruction touched it. -/
theorem claimC6_apply_ok_state (ts t : PatchedTimesheet) (p : Patch)
    (h : ts.apply_patch p = some (Except.ok t)) :
    (∀ c ∈ p.create_event, alookup c.event t.events
        = some ⟨{(p.id, c.start)}, ∅, (c.tags.map fun tg => (p.id, tg)).toFinset, ∅, {p.id}⟩)
    ∧ (∀ e ev, e ∉ createdNames p → alookup e ts.events = some ev →
        alookup e t.events = some
          { starts_added := ev.starts_added
              ∪ ((p.add_start.filter fun a => a.event == e).map fun a => (p.id, a.time)).toFinset,
            starts_removed := ev.starts_removed
              ∪ ((p.remove_start.filter fun r => r.event == e).map fun r => (r.patch, r.time)).toFinset,
            tags_added := ev.tags_added
              ∪ ((p.add_tag.filter fun a => a.event == e).map fun a => (p.id, a.tag)).toFinset,
            tags_removed := ev.tags_removed
              ∪ ((p.remove_tag.filter fun r => r.event == e).map fun r => (r.patch, r.tag)).toFinset,
            latest_patches :=
              if touchesEdit p e then insert p.id (ev.latest_patches \ parentsFor p e)
              else ev.latest_patches }) := by
  obtain ⟨h1, h2, -, -, -, -⟩ := apply_patch_ok_facts ts t p h
  refine ⟨fun c hc => ?_, fun e ev he hev => ?_⟩
  · rw [(h2 c hc).2, seedEvent_eq]
  · rw [h1 e he, hev]
    rfl

theorem claimC6_witness :
    (PatchedTimesheet.new.apply_patch wPatchCreate = some (Except.ok wState1))
      ∧ (∀ c ∈ wPatchCreate.create_event, alookup c.event wState1.events
          = some ⟨{(wPatchCreate.id, c.start)}, ∅,
              (c.tags.map fun tg => (wPatchCreate.id, tg)).toFinset, ∅, {wPatchCreate.id}⟩) :=
  ⟨by decide,
    (claimC6_apply_ok_state PatchedTimesheet.new wState1 wPatchCreate (by decide)).1⟩

theorem patchEffect_idem (p : Patch) (e : EventRef) (ev : PatchedEvent) :
    patchEffect p e (patchEffect p e ev) = patchEffect p e ev := by
  unfold patchEffect
  dsimp only
  by_cases hb : touchesEdit p e = true
  · simp only [hb, if_true, PatchedEvent.mk.injEq]
    repeat' apply And.intro
    all_goals (ext y; simp; try tauto)
  · simp only [hb, if_false, PatchedEvent.mk.injEq]
    repeat' apply And.intro
    all_goals (ext y; simp; try tauto)

/-- C2: applying the same patch twice leaves the state — and hence the
flattened output — exactly as after applying it once: the second
application either fails verification (`DuplicateEventId` when the patch
creates events) leaving the state untouched, or re-runs every instruction
and frontier update as a no-op. -/
theorem claimC2_idempotent (ts : PatchedTimesheet) (p : Patch) (hs : SortedKeys ts) :
    ((applyKeep ts p).bind fun t => applyKeep t p) = applyKeep ts p
    ∧ (((applyKeep ts p).bind fun t => applyKeep t p).bind PatchedTimesheet.flatten)
      = (applyKeep ts p).bind PatchedTimesheet.flatten := by
  have hmain : ((applyKeep ts p).bind fun t => applyKeep t p) = applyKeep ts p := by
    cases happ : ts.apply_patch p with
    | none =>
      unfold applyKeep
      rw [happ]
      rfl
    | some r =>
      cases r with
      | error es =>
        have hak : applyKeep ts p = some ts := by unfold applyKeep; rw [happ]
        rw [hak, Option.some_bind]
        exact hak
      | ok t =>
        have hak : applyKeep ts p = some t := by unfold applyKeep; rw [happ]
        rw [hak, Option.some_bind]
        obtain ⟨hf1, hf2, hf3, hf4, hf5, hf6⟩ := apply_patch_ok_facts ts t p happ
        by_cases hcn : createdNames p = []
        · have hpres : ∀ e ∈ referencedEvents p,
              (alookup e t.events).isSome = (alookup e ts.events).isSome := by
            intro e _
            apply bool_eq_of_iff
            rw [hf5 e, hcn]
            simp
          have hvt : t.verify_patch p = some (Except.ok ()) := by
            rw [verify_patch_congr ts t p hpres]
            exact hf6
          obtain ⟨t2, ht2⟩ := apply_patch_ok_of t p hvt hf3
          obtain ⟨hg1, -, -, hg4, -, -⟩ := apply_patch_ok_facts t t2 p ht2
          have hsort_t : SortedKeys t := hf4 hs
          have hsort_t2 : SortedKeys t2 := hg4 hsort_t
          unfold SortedKeys at hsort_t hsort_t2
          have hev : t2.events = t.events := by
            apply alist_ext_sorted _ _ hsort_t2 hsort_t
            intro k
            rw [hg1 k (by rw [hcn]; simp), hf1 k (by rw [hcn]; simp)]
            cases alookup k ts.events with
            | none => rfl
            | some v =>
              simp only [Option.map_some']
              rw [patchEffect_idem]
          have hteq : t2 = t := by
            calc t2 = ⟨t2.events⟩ := rfl
              _ = ⟨t.events⟩ := by rw [hev]
              _ = t := rfl
          unfold applyKeep
          rw [ht2, hteq]
        · obtain ⟨c, hcmem⟩ : ∃ c, c ∈ p.create_event := by
            obtain ⟨e0, he0⟩ := List.exists_mem_of_ne_nil _ hcn
            obtain ⟨c, hcmem, -⟩ := List.mem_map.1 he0
            exact ⟨c, hcmem⟩
          have hdup : (alookup c.event t.events).isSome = true := by
            rw [hf5 c.event]
            exact Or.inr (List.mem_map_of_mem CreateEvent.event hcmem)
          have htagt : tagEventsPresent t p = true := by
            have htag_ts : tagEventsPresent ts p = true :=
              ((verify_patch_eq_ok_iff ts p).1 hf6).1
            unfold tagEventsPresent at htag_ts ⊢
            rw [Bool.and_eq_true, List.all_eq_true, List.all_eq_true] at htag_ts
            rw [Bool.and_eq_true, List.all_eq_true, List.all_eq_true]
            exact ⟨fun a ha => (hf5 a.event).2 (Or.inl (htag_ts.1 a ha)),
              fun r hr => (hf5 r.event).2 (Or.inl (htag_ts.2 r hr))⟩
          have hne : verifyErrors t p ≠ [] := by
            rw [verifyErrors_ne_nil_iff]
            exact Or.inr (Or.inr ⟨c, hcmem, hdup⟩)
          have hverr : t.verify_patch p = some (Except.error (verifyErrors t p)) :=
            (verify_patch_eq_error_iff t p _).2 ⟨htagt, rfl, hne⟩
          unfold applyKeep
          rw [apply_patch_of_verify_error t p _ hverr]
  exact ⟨hmain, by rw [hmain]⟩

theorem claimC2_witness :
    SortedKeys wState1
      ∧ ((applyKeep wState1 wPatchAdd).bind fun t => applyKeep t wPatchAdd)
        = applyKeep wState1 wPatchAdd :=
  ⟨by decide, (claimC2_idempotent wState1 wPatchAdd (by decide)).1⟩

/-! ## Lemmas: commutation of independent patches -/

theorem mem_unionOver {α : Type} (f : α → Finset PatchRef) (q : PatchRef) :
    ∀ L : List α, q ∈ unionOver f L ↔ ∃ x ∈ L, q ∈ f x := by
  intro L
  induction L with
  | nil => simp [unionOver_nil]
  | cons x xs ih => simp [unionOver_cons, ih]

theorem mem_foldr_removal {α : Type} (pf : α → PatchRef) (ps : α → Finset PatchRef)
    (q : PatchRef) :
    ∀ L : List α, q ∈ L.foldr (fun r s => insert (pf r) (ps r ∪ s)) ∅
      ↔ ∃ x ∈ L, q = pf x ∨ q ∈ ps x := by
  intro L
  induction L with
  | nil => simp
  | cons x xs ih =>
    simp only [List.foldr_cons, Finset.mem_insert, Finset.mem_union, ih, List.mem_cons]
    constructor
    · rintro (h | h | ⟨y, hy, hq⟩)
      · exact ⟨x, Or.inl rfl, Or.inl h⟩
      · exact ⟨x, Or.inl rfl, Or.inr h⟩
      · exact ⟨y, Or.inr hy, hq⟩
    · rintro ⟨y, (rfl | hy), hq⟩
      · rcases hq with h | h
        · exact Or.inl h
        · exact Or.inr (Or.inl h)
      · exact Or.inr (Or.inr ⟨y, hy, hq⟩)

theorem parentsFor_subset (p : Patch) (e : EventRef) : parentsFor p e ⊆ p.parents := by
  intro q hq
  unfold parentsFor at hq
  unfold Patch.parents
  simp only [Finset.mem_union] at hq ⊢
  rcases hq with ((h1 | h2) | h3) | h4
  · obtain ⟨a, ha, hqa⟩ := (mem_unionOver _ q _).1 h1
    exact Or.inl (Or.inl (Or.inl ((mem_unionOver _ q _).2 ⟨a, (List.mem_filter.1 ha).1, hqa⟩)))
  · obtain ⟨r, hr, hqr⟩ := (mem_unionOver _ q _).1 h2
    rw [Finset.mem_insert] at hqr
    exact Or.inl (Or.inl (Or.inr ((mem_foldr_removal _ _ q _).2
      ⟨r, (List.mem_filter.1 hr).1, hqr⟩)))
  · obtain ⟨a, ha, hqa⟩ := (mem_unionOver _ q _).1 h3
    exact Or.inr ((mem_unionOver _ q _).2 ⟨a, (List.mem_filter.1 ha).1, hqa⟩)
  · obtain ⟨r, hr, hqr⟩ := (mem_unionOver _ q _).1 h4
    rw [Finset.mem_insert] at hqr
    exact Or.inl (Or.inr ((mem_foldr_removal _ _ q _).2 ⟨r, (List.mem_filter.1 hr).1, hqr⟩))

theorem patchEffect_not_referenced (p : Patch) (e : EventRef)
    (h : e ∉ referencedEvents p) (ev : PatchedEvent) : patchEffect p e ev = ev := by
  have hAS : (p.add_start.filter fun a => a.event == e) = [] := by
    rw [List.filter_eq_nil_iff]
    intro a ha
    simp only [beq_iff_eq]
    intro hae
    exact h (hae ▸ mem_referenced_addStart p a ha)
  have hRS : (p.remove_start.filter fun r => r.event == e) = [] := by
    rw [List.filter_eq_nil_iff]
    intro r hr
    simp only [beq_iff_eq]
    intro hre
    exact h (hre ▸ mem_referenced_removeStart p r hr)
  have hAT : (p.add_tag.filter fun a => a.event == e) = [] := by
    rw [List.filter_eq_nil_iff]
    intro a ha
    simp only [beq_iff_eq]
    intro hae
    exact h (hae ▸ mem_referenced_addTag p a ha)
  have hRT : (p.remove_tag.filter fun r => r.event == e) = [] := by
    rw [List.filter_eq_nil_iff]
    intro r hr
    simp only [beq_iff_eq]
    intro hre
    exact h (hre ▸ mem_referenced_removeTag p r hr)
  have ht : touchesEdit p e = false := (touchesEdit_eq_false_iff p e).2 ⟨hAS, hRS, hAT, hRT⟩
  unfold patchEffect
  rw [hAS, hRS, hAT, hRT]
  cases ev
  simp [ht]

theorem patchEffect_comm (A B : Patch) (e : EventRef)
    (hAB : A.id ∉ B.parents) (hBA : B.id ∉ A.parents) (ev : PatchedEvent) :
    patchEffect B e (patchEffect A e ev) = patchEffect A e (patchEffect B e ev) := by
  have hA : A.id ∉ parentsFor B e := fun hmem => hAB (parentsFor_subset B e hmem)
  have hB : B.id ∉ parentsFor A e := fun hmem => hBA (parentsFor_subset A e hmem)
  unfold patchEffect
  dsimp only
  simp only [PatchedEvent.mk.injEq]
  refine ⟨?_, ?_, ?_, ?_, ?_⟩
  · ext y; simp only [Finset.mem_union]; tauto
  · ext y; simp only [Finset.mem_union]; tauto
  · ext y; simp only [Finset.mem_union]; tauto
  · ext y; simp only [Finset.mem_union]; tauto
  · by_cases hta : touchesEdit A e = true <;> by_cases htb : touchesEdit B e = true
    · simp only [hta, htb, if_true]
      ext y
      simp only [Finset.mem_insert, Finset.mem_sdiff]
      constructor
      · rintro (rfl | ⟨(rfl | ⟨hyL, hyPA⟩), hyPB⟩)
        · exact Or.inr ⟨Or.inl rfl, hB⟩
        · exact Or.inl rfl
        · exact Or.inr ⟨Or.inr ⟨hyL, hyPB⟩, hyPA⟩
      · rintro (rfl | ⟨(rfl | ⟨hyL, hyPB⟩), hyPA⟩)
        · exact Or.inr ⟨Or.inl rfl, hA⟩
        · exact Or.inl rfl
        · exact Or.inr ⟨Or.inr ⟨hyL, hyPA⟩, hyPB⟩
    · simp [hta, htb]
    · simp [hta, htb]
    · simp [hta, htb]

theorem presence_transfer (ts tB : PatchedTimesheet) (B A : Patch)
    (hB : ts.apply_patch B = some (Except.ok tB))
    (hside : ∀ e ∈ referencedEvents A, alookup e ts.events = none → e ∉ createdNames B) :
    ∀ e ∈ referencedEvents A, (alookup e tB.events).isSome = (alookup e ts.events).isSome := by
  intro e he
  obtain ⟨-, -, -, -, h5, -⟩ := apply_patch_ok_facts ts tB B hB
  apply bool_eq_of_iff
  rw [h5 e]
  constructor
  · rintro (h | hmem)
    · exact h
    · cases hl : alookup e ts.events with
      | some v => simp
      | none => exact absurd hmem (hside e he hl)
  · exact Or.inl

theorem apply_ok_comm (ts tA tB : PatchedTimesheet) (A B : Patch)
    (hs : SortedKeys ts) (hind : IndependentOn ts A B)
    (hA : ts.apply_patch A = some (Except.ok tA))
    (hB : ts.apply_patch B = some (Except.ok tB)) :
    ∃ u, tA.apply_patch B = some (Except.ok u) ∧ tB.apply_patch A = some (Except.ok u) := by
  obtain ⟨hne, hpB, hpA, hindA, hindB⟩ := hind
  obtain ⟨fA1, fA2, fA3, fA4, fA5, fA6⟩ := apply_patch_ok_facts ts tA A hA
  obtain ⟨fB1, fB2, fB3, fB4, fB5, fB6⟩ := apply_patch_ok_facts ts tB B hB
  have hcreA_fresh : ∀ e ∈ createdNames A, alookup e ts.events = none := by
    intro e he
    obtain ⟨c, hc, rfl⟩ := List.mem_map.1 he
    exact (fA2 c hc).1
  have hcreB_fresh : ∀ e ∈ createdNames B, alookup e ts.events = none := by
    intro e he
    obtain ⟨c, hc, rfl⟩ := List.mem_map.1 he
    exact (fB2 c hc).1
  have hAnotB : ∀ e ∈ createdNames A, e ∉ createdNames B := fun e he =>
    hindA e (mem_referenced_of_created A e he) (hcreA_fresh e he)
  have hBnotA : ∀ e ∈ createdNames B, e ∉ createdNames A := fun e he =>
    hindB e (mem_referenced_of_created B e he) (hcreB_fresh e he)
  have hpresBA := presence_transfer ts tA A B hA hindB
  have hpresAB := presence_transfer ts tB B A hB hindA
  have hvA_tB : tB.verify_patch A = some (Except.ok ()) := by
    rw [verify_patch_congr ts tB A hpresAB]
    exact fA6
  have hvB_tA : tA.verify_patch B = some (Except.ok ()) := by
    rw [verify_patch_congr ts tA B hpresBA]
    exact fB6
  obtain ⟨tAB, hAB⟩ := apply_patch_ok_of tA B hvB_tA fB3
  obtain ⟨tBA, hBA⟩ := apply_patch_ok_of tB A hvA_tB fA3
  obtain ⟨gB1, gB2, gB3, gB4, gB5, gB6⟩ := apply_patch_ok_facts tA tAB B hAB
  obtain ⟨gA1, gA2, gA3, gA4, gA5, gA6⟩ := apply_patch_ok_facts tB tBA A hBA
  have hsorted_AB : SortedKeys tAB := gB4 (fA4 hs)
  have hsorted_BA : SortedKeys tBA := gA4 (fB4 hs)
  have hev : tAB.events = tBA.events := by
    unfold SortedKeys at hsorted_AB hsorted_BA
    apply alist_ext_sorted _ _ hsorted_AB hsorted_BA
    intro e
    by_cases heA : e ∈ createdNames A
    · have hnotB : e ∉ referencedEvents B := fun hrefB =>
        absurd heA (hindB e hrefB (hcreA_fresh e heA))
      have hnotcreB : e ∉ createdNames B := hAnotB e heA
      obtain ⟨c, hc, hce⟩ := List.mem_map.1 heA
      subst hce
      rw [gB1 c.event hnotcreB, (fA2 c hc).2]
      simp only [Option.map_some']
      rw [patchEffect_not_referenced B c.event hnotB, (gA2 c hc).2]
    · by_cases heB : e ∈ createdNames B
      · have hnotA : e ∉ referencedEvents A := fun hrefA =>
          absurd heB (hindA e hrefA (hcreB_fresh e heB))
        obtain ⟨c, hc, hce⟩ := List.mem_map.1 heB
        subst hce
        rw [(gB2 c hc).2, gA1 c.event heA, (fB2 c hc).2]
        simp only [Option.map_some']
        rw [patchEffect_not_referenced A c.event hnotA]
      · rw [gB1 e heB, fA1 e heA, gA1 e heA, fB1 e heB]
        cases alookup e ts.events with
        | none => rfl
        | some v =>
          simp only [Option.map_some']
          rw [patchEffect_comm A B e hpB hpA v]
  have heq : tAB = tBA := by
    calc tAB = ⟨tAB.events⟩ := rfl
      _ = ⟨tBA.events⟩ := by rw [hev]
      _ = tBA := rfl
  exact ⟨tAB, hAB, by rw [heq]; exact hBA⟩

/-- C1: two causally independent patches commute — applying A then B (a
verification error leaving the state untouched, a panic aborting) reaches
the same state, and hence the same flattened Timesheet, as applying B then
A. -/
theorem claimC1_commutativity (ts : PatchedTimesheet) (A B : Patch)
    (hs : SortedKeys ts) (hind : IndependentOn ts A B) :
    ((applyKeep ts A).bind fun t => applyKeep t B)
      = ((applyKeep ts B).bind fun t => applyKeep t A)
    ∧ (((applyKeep ts A).bind fun t => applyKeep t B).bind PatchedTimesheet.flatten)
      = (((applyKeep ts B).bind fun t => applyKeep t A).bind PatchedTimesheet.flatten) := by
  obtain ⟨hne, hpB, hpA, hindA, hindB⟩ := hind
  have hmain : ((applyKeep ts A).bind fun t => applyKeep t B)
      = ((applyKeep ts B).bind fun t => applyKeep t A) := by
    cases hA : ts.apply_patch A with
    | none =>
      have hkA : applyKeep ts A = none := by unfold applyKeep; rw [hA]
      rw [hkA]
      simp only [Option.none_bind]
      cases hB : ts.apply_patch B with
      | none =>
        have hkB : applyKeep ts B = none := by unfold applyKeep; rw [hB]
        rw [hkB]
        rfl
      | some rB =>
        cases rB with
        | error esB =>
          have hkB : applyKeep ts B = some ts := by unfold applyKeep; rw [hB]
          rw [hkB]
          simp only [Option.some_bind]
          exact hkA.symm
        | ok tB =>
          have hkB : applyKeep ts B = some tB := by unfold applyKeep; rw [hB]
          rw [hkB]
          simp only [Option.some_bind]
          have hpres := presence_transfer ts tB B A hB hindA
          have hnone : tB.apply_patch A = none :=
            (apply_patch_transfer ts tB A hpres).1.2 hA
          have : applyKeep tB A = none := by unfold applyKeep; rw [hnone]
          exact this.symm
    | some rA =>
      cases rA with
      | error esA =>
        have hkA : applyKeep ts A = some ts := by unfold applyKeep; rw [hA]
        rw [hkA]
        simp only [Option.some_bind]
        cases hB : ts.apply_patch B with
        | none =>
          have hkB : applyKeep ts B = none := by unfold applyKeep; rw [hB]
          rw [hkB]
          rfl
        | some rB =>
          cases rB with
          | error esB =>
            have hkB : applyKeep ts B = some ts := by unfold applyKeep; rw [hB]
            rw [hkB]
            simp only [Option.some_bind]
            rw [hkA]
          | ok tB =>
            have hkB : applyKeep ts B = some tB := by unfold applyKeep; rw [hB]
            rw [hkB]
            simp only [Option.some_bind]
            have hpres := presence_transfer ts tB B A hB hindA
            have herr : tB.apply_patch A = some (Except.error esA) :=
              ((apply_patch_transfer ts tB A hpres).2 esA).2 hA
            have : applyKeep tB A = some tB := by unfold applyKeep; rw [herr]
            rw [this]
      | ok tA =>
        have hkA : applyKeep ts A = some tA := by unfold applyKeep; rw [hA]
        rw [hkA]
        simp only [Option.some_bind]
        cases hB : ts.apply_patch B with
        | none =>
          have hkB : applyKeep ts B = none := by unfold applyKeep; rw [hB]
          rw [hkB]
          simp only [Option.none_bind]
          have hpres := presence_transfer ts tA A B hA hindB
          have hnone : tA.apply_patch B = none :=
            (apply_patch_transfer ts tA B hpres).1.2 hB
          unfold applyKeep
          rw [hnone]
        | some rB =>
          cases rB with
          | error esB =>
            have hkB : applyKeep ts B = some ts := by unfold applyKeep; rw [hB]
            rw [hkB]
            simp only [Option.some_bind]
            rw [hkA]
            have hpres := presence_transfer ts tA A B hA hindB
            have herr : tA.apply_patch B = some (Except.error esB) :=
              ((apply_patch_transfer ts tA B hpres).2 esB).2 hB
            unfold applyKeep
            rw [herr]
          | ok tB =>
            obtain ⟨u, hu1, hu2⟩ := apply_ok_comm ts tA tB A B hs
              ⟨hne, hpB, hpA, hindA, hindB⟩ hA hB
            have hkB : applyKeep ts B = some tB := by unfold applyKeep; rw [hB]
            rw [hkB]
            simp only [Option.some_bind]
            have h1 : applyKeep tA B = some u := by unfold applyKeep; rw [hu1]
            have h2 : applyKeep tB A = some u := by unfold applyKeep; rw [hu2]
            rw [h1, h2]
  exact ⟨hmain, by rw [hmain]⟩

theorem claimC1_witness :
    (SortedKeys wState1 ∧ IndependentOn wState1 wPatchAdd wPatchTag)
      ∧ ((applyKeep wState1 wPatchAdd).bind fun t => applyKeep t wPatchTag)
        = ((applyKeep wState1 wPatchTag).bind fun t => applyKeep t wPatchAdd) :=
  ⟨⟨by decide, by decide⟩,
    (claimC1_commutativity wState1 wPatchAdd wPatchTag (by decide) (by decide)).1⟩
